import Mathlib

/-!
# LasecPlot serial-port helper: port inventory

A shallow embedding of `serialPort/main.go`, `serialPort/util.go` and
`serialPort/windows_registry.go`: the key normaliser (`normKey`), the
numeric-aware sorter (`extractNum`, `sortPorts`), the port merger (`listPorts`)
and the registry adapter (`listFromWindowsRegistry`).

Conventions of the embedding

* A Go `string` is a sequence of bytes; it is modelled as a list of natural
  numbers (each below 256 for a real string, see `IsBytes`).  No function
  below needs the bound, so the theorems are stated for all lists.
* Go `int` is the 64-bit signed integer of the usual targets; values are
  modelled in `Int` and `strconv.Atoi` saturates at `maxInt`.
* `sort.Slice` is library code.  Its documentation promises a permutation
  of the slice that is ordered by `less`, and says that the sort is not
  stable.  The embedding therefore takes the library sort as a parameter
  `SliceSort` carrying exactly that contract; `insertionSlice` is one
  executable instance.
  `goSlice` refines the parameter by what package `sort` does, since Go 1.19,
  with a slice of at most 12 elements and with a slice that is already
  ordered; it is used where a property depends on the order of the elements
  that `less` does not separate.
* A Go `map` is an association list with unique keys; `range` over a map
  visits the keys in an order the language leaves unspecified, so the
  emit loop of `listPorts` takes the visiting order as a parameter.
* The pattern `\s+REG_SZ\s+(.+)$` is run as a backtracking search: leftmost
  start first, and at each start the alternatives of the greedy repetitions,
  longest first.  White space for `strings.TrimSpace` is what
  `unicode.IsSpace` accepts, given by its UTF-8 encodings (`spaceRunes`).
* `strings.ToLower` lowers a string of ASCII bytes byte by byte; for any other
  string it runs the Unicode mapping of the library, a parameter
  `UnicodeLower` of which only the treatment of ASCII bytes is used.
-/

namespace SerialPort

/-! ## Strings -/

/-- A Go string: its bytes. -/
abbrev GoString := List Nat

/-- Bytes of an ASCII literal. -/
def ascii (s : String) : GoString := s.data.map Char.toNat

/-- Well-formedness of a Go string: every element is a byte. -/
def IsBytes (s : GoString) : Prop := ∀ b ∈ s, b < 256

/-- Go's `<` on strings: byte-wise lexicographic, a proper prefix is smaller. -/
def strLt : GoString → GoString → Bool
  | [], [] => false
  | [], _ :: _ => true
  | _ :: _, [] => false
  | a :: as, b :: bs => if a < b then true else if b < a then false else strLt as bs

/-! ## Data model (`main.go`, `type Port`) -/

/-- The record `Port` of `main.go`. -/
structure Port where
  path : GoString
  friendlyName : GoString := []
  devicePath : GoString := []
  manufacturer : GoString := []
  pnpId : GoString := []
  deviceLocation : GoString := []
  productId : GoString := []
  source : GoString := []
  isVirtual : Bool := false
  deriving DecidableEq, Repr

/-- The label `"serial"`. -/
def srcSerial : GoString := ascii "serial"

/-- The label `"SERIALCOMM"`. -/
def srcRegistry : GoString := ascii "SERIALCOMM"

/-- The label `"SERIALCOMM+serial"`. -/
def srcBoth : GoString := ascii "SERIALCOMM+serial"

/-! ## Key normaliser (`main.go`, `normKey`, `stringsToUpperASCII`) -/

/-- One step of the loop of `stringsToUpperASCII`:
`if b[i] >= 'a' && b[i] <= 'z' { b[i] = b[i] - 32 }`. -/
def upperByte (b : Nat) : Nat := if 97 ≤ b ∧ b ≤ 122 then b - 32 else b

/-- `stringsToUpperASCII`: the loop visits every byte once. -/
def stringsToUpperASCII (s : GoString) : GoString := s.map upperByte

/-- `normKey`. -/
def normKey (s : GoString) : GoString := stringsToUpperASCII s

/-! ## Numeric-aware sorter (`util.go`) -/

/-- The class `\d` of Go's `regexp`: the ASCII digits `'0'..'9'`. -/
def isDigit (b : Nat) : Bool := decide (48 ≤ b) && decide (b ≤ 57)

/-- `rxNum.FindString(s)` for the pattern `\d+`: the leftmost match, taken
greedily, i.e. the first maximal run of digits; empty when there is none. -/
def findDigits (s : GoString) : GoString :=
  (s.dropWhile (fun b => !isDigit b)).takeWhile isDigit

/-- Decimal value of a run of digits, most significant first. -/
def decimalValue (m : GoString) : Nat := m.foldl (fun n b => 10 * n + (b - 48)) 0

/-- Width of Go's `int`. -/
def intSize : Nat := 64

/-- Largest `int`. -/
def maxInt : Int := 2 ^ (intSize - 1) - 1

/-- `n, _ := strconv.Atoi(m)` on a non-empty run of digits: the value when
it fits an `int`; otherwise `Atoi` reports a range error, which the caller
drops, and returns the largest `int` (`strconv`: on `ErrRange` "the returned
value is the maximum magnitude integer of the appropriate bitSize and sign"). -/
def atoi (m : GoString) : Int :=
  if (decimalValue m : Int) > maxInt then maxInt else (decimalValue m : Int)

/-- `extractNum`. -/
def extractNum (s : GoString) : Int :=
  if s = [] then 0
  else
    let m := findDigits s
    if m = [] then 0 else atoi m

/-- The closure passed to `sort.Slice` in `sortPorts`. -/
def portLess (a b : Port) : Bool :=
  let ai := extractNum a.path
  let aj := extractNum b.path
  if ai ≠ aj then decide (ai < aj) else strLt a.path b.path

/-- Requirement of `sort.Slice` on its `less`: a strict weak ordering. -/
structure StrictWeak (less : Port → Port → Bool) : Prop where
  irrefl : ∀ a, less a a = false
  trans : ∀ a b c, less a b = true → less b c = true → less a c = true
  negTrans : ∀ a b c, less a b = false → less b c = false → less a c = false

/-- The library function `sort.Slice` on slices of `Port`, by its documented
contract: the result is a permutation of the slice, and it is ordered by
`less` whenever `less` is a strict weak ordering.  Nothing is promised about
the relative order of elements that `less` does not separate. -/
structure SliceSort where
  run : (Port → Port → Bool) → List Port → List Port
  perm : ∀ less l, (run less l).Perm l
  sorted : ∀ less l, StrictWeak less →
    (run less l).Pairwise (fun a b => less b a = false)

/-- `sortPorts`, over a library sort. -/
def sortPorts (S : SliceSort) (p : List Port) : List Port := S.run portLess p

/-- Insert `x` into an ordered list, after the elements that are not above it. -/
def insertLast (less : Port → Port → Bool) (x : Port) : List Port → List Port
  | [] => [x]
  | y :: ys => if less x y then x :: y :: ys else y :: insertLast less x ys

/-- Insertion sort: it keeps the order of the elements `less` does not separate. -/
def insertionRun (less : Port → Port → Bool) (l : List Port) : List Port :=
  l.foldl (fun acc x => insertLast less x acc) []

/-- Insert `x` into an ordered list, before the elements that are not below it. -/
def insertFirst (less : Port → Port → Bool) (x : Port) : List Port → List Port
  | [] => [x]
  | y :: ys => if less y x then y :: insertFirst less x ys else x :: y :: ys

/-- A sort that reverses the elements `less` does not separate. -/
def reversingRun (less : Port → Port → Bool) (l : List Port) : List Port :=
  l.foldl (fun acc x => insertFirst less x acc) []

/-- The inner loop of `insertionSort_func` of package `sort`,
`for j := i; j > a && less(j, j-1); j-- { swap(j, j-1) }`: the element `x`
moves left past the elements it is less than, and stops at the first it is
not less than.  `racc` is the part of the slice before `x`, its last element
first; so is the result. -/
def sinkLeft (less : Port → Port → Bool) (x : Port) : List Port → List Port
  | [] => [x]
  | y :: ys => if less x y then y :: sinkLeft less x ys else x :: y :: ys

/-- `insertionSort_func` of package `sort`: the elements are taken left to
right and each is sunk into the part before it. -/
def goInsertionSort (less : Port → Port → Bool) (l : List Port) : List Port :=
  (l.foldl (fun racc x => sinkLeft less x racc) []).reverse

/-- No element of the slice is less than an element before it. -/
def isOrdered (less : Port → Port → Bool) : List Port → Bool
  | [] => true
  | a :: t => t.all (fun b => !less b a) && isOrdered less t

/-- `sort.Slice` as package `sort` runs it since Go 1.19 (`pdqsort_func`).  A
slice of at most 12 elements goes to `insertionSort_func`.  On a longer slice
that is already ordered, `choosePivot_func` counts no swap and gives the hint
`increasingHint`, `partialInsertionSort_func` finds every adjacent pair in
order and returns true, and the slice is returned without a swap.  For any
other slice the result is the one of a library sort `S`, known by the contract
only. -/
def goSortRun (S : SliceSort) (less : Port → Port → Bool) (l : List Port) : List Port :=
  if l.length ≤ 12 then goInsertionSort less l
  else if isOrdered less l then l
  else S.run less l

/-! ## Port merger (`main.go`, `listPorts`) -/

/-- A Go map keyed by strings: an association list in which no key repeats. -/
abbrev GoMap (V : Type) := List (GoString × V)

/-- The map index expression with the comma-ok form `v, ok := m[k]`. -/
def mapGet {V : Type} : GoMap V → GoString → Option V
  | [], _ => none
  | (k', v) :: t, k => if k' = k then some v else mapGet t k

/-- The map assignment `m[k] = v`: overwrites the entry of `k` or adds one. -/
def mapSet {V : Type} : GoMap V → GoString → V → GoMap V
  | [], k, v => [(k, v)]
  | (k', v') :: t, k, v => if k' = k then (k, v) :: t else (k', v') :: mapSet t k v

/-- The keys held by a map. -/
def mapKeys {V : Type} (m : GoMap V) : List GoString := m.map Prod.fst

/-- Step 1 of `listPorts`: `baseMap[normKey(p)] = Port{Path: p, Source: "serial"}`
for every `p` of the base list, in order. -/
def baseMapOf (base : List GoString) : GoMap Port :=
  base.foldl (fun m p => mapSet m (normKey p) { path := p, source := srcSerial }) []

/-- Step 2 of `listPorts`: `regMap[normKey(r.Path)] = r` for every registry
record, in order. -/
def regMapOf (reg : List Port) : GoMap Port :=
  reg.foldl (fun m r => mapSet m (normKey r.path) r) []

/-- The set `keys` of `listPorts`: the keys of `baseMap`, then those of `regMap`. -/
def keysOf (baseMap regMap : GoMap Port) : GoMap Unit :=
  (mapKeys regMap).foldl (fun ks k => mapSet ks k ())
    ((mapKeys baseMap).foldl (fun ks k => mapSet ks k ()) [])

/-- Body of the emit loop of `listPorts` for one key `k`. -/
def emitStep (baseMap regMap : GoMap Port) (final : List Port) (k : GoString) :
    List Port :=
  match mapGet baseMap k, mapGet regMap k with
  | some _, some r => final ++ [{ r with source := srcBoth }]
  | none, some r => final ++ [r]
  | some b, none => final ++ [b]
  | none, none => final

/-- The emit loop of `listPorts`, visiting the keys in the order `order`. -/
def emitAll (baseMap regMap : GoMap Port) (order : List GoString) : List Port :=
  order.foldl (emitStep baseMap regMap) []

/-- The orders in which `for k := range keys` may visit the keys: every
arrangement of the key set. -/
def RangeOrder (base : List GoString) (reg : List Port) (order : List GoString) :
    Prop :=
  order.Perm (mapKeys (keysOf (baseMapOf base) (regMapOf reg)))

/-- One visiting order, used where a concrete one is needed. -/
def someOrder (base : List GoString) (reg : List Port) : List GoString :=
  mapKeys (keysOf (baseMapOf base) (regMapOf reg))

/-- `listPorts`, given what `serial.GetPortsList()` returned (`base`, its error
is dropped), what `listFromWindowsRegistry()` returned (`reg`) and the order in
which the key set is ranged over.  The second component is the returned
`error`, `none` for `nil`. -/
def listPorts (S : SliceSort) (base : List GoString) (reg : List Port)
    (order : List GoString) : List Port × Option GoString :=
  let baseMap := baseMapOf base
  let regMap := regMapOf reg
  let final := emitAll baseMap regMap order
  (sortPorts S final, none)

/-! ## Registry source adapter (`windows_registry.go`) -/

/-- `strings.ReplaceAll(s, "\r\n", "\n")`: every carriage return that is followed
by a line feed is dropped, left to right. -/
def replaceCRLF : GoString → GoString
  | [] => []
  | [c] => [c]
  | c :: d :: rest =>
    if c = 13 ∧ d = 10 then 10 :: replaceCRLF rest else c :: replaceCRLF (d :: rest)

/-- `strings.Split(s, "\n")`: the pieces between the line feeds, one more than
there are line feeds. -/
def splitLines : GoString → List GoString
  | [] => [[]]
  | c :: t =>
    if c = 10 then [] :: splitLines t
    else
      match splitLines t with
      | [] => [[c]]
      | l :: ls => (c :: l) :: ls

/-- `strings.HasPrefix(s, p)`. -/
def hasPrefix : GoString → GoString → Bool
  | _, [] => true
  | [], _ :: _ => false
  | c :: s, d :: p => decide (c = d) && hasPrefix s p

/-- `strings.Contains(s, sub)`. -/
def contains : GoString → GoString → Bool
  | [], sub => hasPrefix [] sub
  | c :: t, sub => hasPrefix (c :: t) sub || contains t sub

/-- The marker `"REG_SZ"`. -/
def regSz : GoString := ascii "REG_SZ"

/-- The class `\s` of Go's `regexp`: `[\t\n\f\r ]`. -/
def isReSpace (b : Nat) : Bool :=
  decide (b = 9) || decide (b = 10) || decide (b = 12) || decide (b = 13) || decide (b = 32)

/-- The ways `\s+` matches at the head of `s`, in the order a greedy repetition
tries them: what is left of `s` after the longest run of `\s`, then after one
character less, down to one character. -/
def afterSpaces : GoString → List GoString
  | [] => []
  | c :: t => if isReSpace c then afterSpaces t ++ [t] else []

/-- `(.+)$` at `s`: `.` takes any character but a line feed and `$` is the end
of the text, so the group is all of `s`, which has to be non-empty and free of
line feeds. -/
def restOfText (s : GoString) : Option GoString :=
  if s ≠ [] ∧ 10 ∉ s then some s else none

/-- The pattern `\s+REG_SZ\s+(.+)$` tried at the head of `s`: the text of
group 1 of the first alternative, in backtracking order, that succeeds. -/
def matchHere (s : GoString) : Option GoString :=
  (afterSpaces s).findSome? (fun r1 =>
    if hasPrefix r1 regSz then
      (afterSpaces (r1.drop regSz.length)).findSome? restOfText
    else none)

/-- `re.FindStringSubmatch(ln)` for `\s+REG_SZ\s+(.+)$`: the match at the
leftmost position that has one (`regexp`: "a match that begins as early as
possible in the input (leftmost), and among those it chooses the one that a
backtracking engine would have found first"); `some g` stands for the slice
`[whole, g]`, `none` for `nil`.  The bytes of `\s`, of the marker and the line
feed are ASCII, each a rune of its own in any text, so the search can be run on
bytes. -/
def findSubmatch : GoString → Option GoString
  | [] => matchHere []
  | c :: t => (matchHere (c :: t)).orElse (fun _ => findSubmatch t)

/-- The UTF-8 encodings of the code points `unicode.IsSpace` accepts: tab, line
feed, vertical tab, form feed, carriage return, space, U+0085, U+00A0, U+1680,
U+2000 to U+200A, U+2028, U+2029, U+202F, U+205F, U+3000. -/
def spaceRunes : List GoString :=
  [[9], [10], [11], [12], [13], [32], [194, 133], [194, 160], [225, 154, 128],
   [226, 128, 128], [226, 128, 129], [226, 128, 130], [226, 128, 131],
   [226, 128, 132], [226, 128, 133], [226, 128, 134], [226, 128, 135],
   [226, 128, 136], [226, 128, 137], [226, 128, 138], [226, 128, 168],
   [226, 128, 169], [226, 128, 175], [226, 129, 159], [227, 128, 128]]

/-- Strip, up to `n` times, one of the byte sequences `pats` from the head of `s`. -/
def stripN (pats : List GoString) : Nat → GoString → GoString
  | 0, s => s
  | n + 1, s =>
    match pats.find? (fun p => hasPrefix s p) with
    | some p => stripN pats n (s.drop p.length)
    | none => s

/-- `strings.TrimLeftFunc(s, unicode.IsSpace)`: the leading white space runes
are dropped; there are at most `len(s)` of them. -/
def trimLeft (s : GoString) : GoString := stripN spaceRunes s.length s

/-- `strings.TrimRightFunc(s, unicode.IsSpace)`: the same from the end. -/
def trimRight (s : GoString) : GoString :=
  (stripN (spaceRunes.map List.reverse) s.length s.reverse).reverse

/-- `strings.TrimSpace(s)`. -/
def trimSpace (s : GoString) : GoString := trimRight (trimLeft s)

/-- `strings.SplitN(s, "  ", 2)[0]`: what stands before the first two
consecutive spaces, all of `s` when there are none. -/
def beforeDoubleSpace : GoString → GoString
  | [] => []
  | [c] => [c]
  | c :: d :: t => if c = 32 ∧ d = 32 then [] else c :: beforeDoubleSpace (d :: t)

/-- Lower case of an ASCII byte. -/
def lowerByte (c : Nat) : Nat := if 65 ≤ c ∧ c ≤ 90 then c + 32 else c

/-- The library function `strings.Map(unicode.ToLower, s)`, which `strings.ToLower`
runs on a string holding a byte outside ASCII.  Of the Unicode tables only this
is used: a byte of ASCII is a rune of its own, whatever surrounds it, and is
mapped to its ASCII lower case, and the images of the runes are written in
order; so a stretch of ASCII bytes comes out as that stretch in lower case. -/
structure UnicodeLower where
  run : GoString → GoString
  asciiStretch : ∀ pre a post : GoString, (∀ b ∈ a, b < 128) →
    ∃ pre' post', run (pre ++ a ++ post) = pre' ++ a.map lowerByte ++ post'

/-- `strings.ToLower(s)`: a string of ASCII bytes is lowered byte by byte, any
other string goes through the Unicode mapping. -/
def toLower (U : UnicodeLower) (s : GoString) : GoString :=
  if s.all (fun c => decide (c < 128)) then s.map lowerByte else U.run s

/-- The substrings that mark a virtual port. -/
def virtualMarkers : List GoString :=
  [ascii "com0com", ascii "virtual", ascii "null-modem", ascii "emulator", ascii "loopback"]

/-- Body of the loop of `listFromWindowsRegistry` for one line: the record
appended to `found`, `none` where the loop says `continue`. -/
def parseLine (U : UnicodeLower) (ln : GoString) : Option Port :=
  if !contains ln regSz then none
  else
    match findSubmatch ln with
    | none => none
    | some g =>
      let com := trimSpace g
      if com = [] then none
      else
        let devPath := trimSpace (beforeDoubleSpace (trimSpace ln))
        let lower := toLower U (devPath ++ ascii " " ++ com)
        some { path := com, friendlyName := devPath, devicePath := devPath,
               source := srcRegistry,
               isVirtual := virtualMarkers.any (fun m => contains lower m) }

/-- The lines `listFromWindowsRegistry` reads from the output of `reg query`. -/
def regLines (out : GoString) : List GoString := splitLines (replaceCRLF out)

/-- `listFromWindowsRegistry`, given what `reg query` printed (`out`) and whether
running it failed (`failed`, the `err != nil` of `CombinedOutput`). -/
def listFromWindowsRegistry (S : SliceSort) (U : UnicodeLower) (out : GoString)
    (failed : Bool) : List Port :=
  if failed then []
  else sortPorts S ((regLines out).filterMap (parseLine U))

/-- The listing branch of `main`: the exit status, 2 when `listPorts` returns an
error, 0 after the inventory is printed. -/
def mainListExit (r : List Port × Option GoString) : Nat :=
  match r.2 with
  | some _ => 2
  | none => 0

/-- Lowering byte by byte, as a stand-in for the Unicode mapping where a
concrete one is needed. -/
def byteLower : UnicodeLower where
  run := fun s => s.map lowerByte
  asciiStretch := fun pre a post _ =>
    ⟨pre.map lowerByte, post.map lowerByte, by simp⟩

/-! ## Notions used to state the properties -/

/-- What the emit loop appends for the key `k`, if anything. -/
def emitOne (baseMap regMap : GoMap Port) (k : GoString) : Option Port :=
  match mapGet baseMap k, mapGet regMap k with
  | some _, some r => some { r with source := srcBoth }
  | none, some r => some r
  | some b, none => some b
  | none, none => none

/-- The string `s` is `pre ++ run ++ post` where `run` is its first maximal run
of ASCII digits: no digit before it, and no digit right after it. -/
def FirstRun (s run : GoString) : Prop :=
  ∃ pre post, s = pre ++ run ++ post ∧ (∀ b ∈ pre, isDigit b = false) ∧
    run ≠ [] ∧ (∀ b ∈ run, isDigit b = true) ∧ (∀ c ∈ post.head?, isDigit c = false)

/-- The number a run of digits denotes, as a sum of powers of ten. -/
def digitsValue (run : GoString) : Nat := Nat.ofDigits 10 ((run.map (fun b => b - 48)).reverse)

/-- The number denoted by the first run of digits of `s`, and 0 when `s` has no digit. -/
def firstRunValue (s : GoString) : Nat := decimalValue (findDigits s)

/-- Two bytes that are equal or the two ASCII cases of one letter. -/
def SameLetter (a b : Nat) : Prop :=
  a = b ∨ (65 ≤ a ∧ a ≤ 90 ∧ b = a + 32) ∨ (65 ≤ b ∧ b ≤ 90 ∧ a = b + 32)

/-- Two strings of the same length that differ only in ASCII letter case. -/
def EqUpToCase (s t : GoString) : Prop := List.Forall₂ SameLetter s t

/-- A string made of the byte sequences `pats`, one after the other. -/
inductive RunOf (pats : List GoString) : GoString → Prop
  | nil : RunOf pats []
  | cons (p l : GoString) : p ∈ pats → RunOf pats l → RunOf pats (p ++ l)

/-- A run of white space, as `strings.TrimSpace` understands it. -/
def SpaceRun (l : GoString) : Prop := RunOf spaceRunes l

/-- The string does not begin with white space. -/
def NoLeadSpace (s : GoString) : Prop := ∀ p ∈ spaceRunes, ¬ p <+: s

/-- The string does not end with white space. -/
def NoTrailSpace (s : GoString) : Prop := ∀ p ∈ spaceRunes, ¬ p <:+ s

/-! ## Sample inputs -/

/-- A registry record as the adapter builds it for `COM3`. -/
def arduino : Port :=
  { path := ascii "COM3", friendlyName := ascii "Arduino Uno",
    devicePath := ascii "Arduino Uno", source := srcRegistry }

/-- A registry record for a port the base list spells `com7`. -/
def serial7 : Port :=
  { path := ascii "COM7", friendlyName := ascii "Serial7",
    devicePath := ascii "Serial7", source := srcRegistry }

/-- A base list with two spellings of one port. -/
def sampleBase : List GoString := [ascii "COM3", ascii "com7", ascii "ttyS1", ascii "TTYS1"]

/-- A registry list. -/
def sampleReg : List Port := [arduino, serial7, { serial7 with path := ascii "COM12" }]

/-- A port whose index is 20 nines. -/
def port99 : Port := { path := ascii "COM99999999999999999999" }

/-- A port whose index is ten to the 20th. -/
def port100 : Port := { path := ascii "COM100000000000000000000" }

/-- A port whose index is two to the 63rd. -/
def portP63 : Port := { path := ascii "tty9223372036854775808" }

/-- A port whose index is two to the 64th. -/
def portP64 : Port := { path := ascii "tty18446744073709551616" }

/-- A second record for the path of `arduino`, with another friendly name. -/
def arduinoMega : Port := { arduino with friendlyName := ascii "Arduino Mega" }

/-- The line of the example: value name `\Device\Serial0`, value `COM3`. -/
def lineSerial0 : GoString := ascii "    \\Device\\Serial0    REG_SZ    COM3"

/-- A line whose value name ends in `com0`. -/
def lineCom0 : GoString := ascii "    \\Device\\com0    REG_SZ    COM3"

/-- The record of `lineCom0`. -/
def recCom0 : Port :=
  { path := ascii "COM3", friendlyName := ascii "\\Device\\com0",
    devicePath := ascii "\\Device\\com0", source := srcRegistry, isVirtual := false }

/-- A line of a com0com port, the name in upper case. -/
def lineCnc : GoString := ascii "    \\Device\\COM0COM11    REG_SZ    CNCA0"

/-- The record of `lineCnc`. -/
def recCnc : Port :=
  { path := ascii "CNCA0", friendlyName := ascii "\\Device\\COM0COM11",
    devicePath := ascii "\\Device\\COM0COM11", source := srcRegistry, isVirtual := true }

/-- Output of the registry query with two value names for one port, the second
spelling it `com5`. -/
def twoNames : GoString :=
  ascii "    \\Device\\com0com10    REG_SZ    COM5\r\n    \\Device\\Serial0    REG_SZ    com5\r\n"

/-- The record of the first line of `twoNames`. -/
def virtual5 : Port :=
  { path := ascii "COM5", friendlyName := ascii "\\Device\\com0com10",
    devicePath := ascii "\\Device\\com0com10", source := srcRegistry, isVirtual := true }

/-- The record of the second line of `twoNames`. -/
def plain5 : Port :=
  { path := ascii "com5", friendlyName := ascii "\\Device\\Serial0",
    devicePath := ascii "\\Device\\Serial0", source := srcRegistry, isVirtual := false }

/-- Thirteen records of `COM2` that differ in the friendly name. -/
def thirteen : List Port :=
  (List.range 13).map (fun i => { path := ascii "COM2", friendlyName := [65 + i] })

/-! ## The order on paths -/

theorem strLt_irrefl (s : GoString) : strLt s s = false := by
  induction s with
  | nil => rfl
  | cons a t ih => simp [strLt, ih]

theorem strLt_asymm : ∀ s t : GoString, strLt s t = true → strLt t s = false
  | [], [], h => by simp [strLt] at h
  | [], _ :: _, _ => by simp [strLt]
  | _ :: _, [], h => by simp [strLt] at h
  | a :: as, b :: bs, h => by
    rcases Nat.lt_trichotomy a b with hab | hab | hab
    · have h1 : ¬ b < a := by omega
      simp [strLt, hab, h1]
    · subst hab
      simp [strLt] at h ⊢
      exact strLt_asymm as bs h
    · have h1 : ¬ a < b := by omega
      simp [strLt, hab, h1] at h

theorem strLt_trans : ∀ s t u : GoString,
    strLt s t = true → strLt t u = true → strLt s u = true
  | [], [], _, h, _ => by simp [strLt] at h
  | [], _ :: _, [], _, h => by simp [strLt] at h
  | [], _ :: _, _ :: _, _, _ => by simp [strLt]
  | _ :: _, [], _, h, _ => by simp [strLt] at h
  | _ :: _, _ :: _, [], _, h => by simp [strLt] at h
  | a :: as, b :: bs, c :: cs, h1, h2 => by
    rcases Nat.lt_trichotomy a b with hab | hab | hab
    · rcases Nat.lt_trichotomy b c with hbc | hbc | hbc
      · have : a < c := by omega
        simp [strLt, this]
      · subst hbc
        simp [strLt, hab]
      · have h3 : ¬ b < c := by omega
        simp [strLt, hbc, h3] at h2
    · subst hab
      rcases Nat.lt_trichotomy a c with hac | hac | hac
      · simp [strLt, hac]
      · subst hac
        simp [strLt] at h1 h2 ⊢
        exact strLt_trans as bs cs h1 h2
      · have h3 : ¬ a < c := by omega
        simp [strLt, hac, h3] at h2
    · have h3 : ¬ a < b := by omega
      simp [strLt, hab, h3] at h1

theorem strLt_total : ∀ s t : GoString, s ≠ t → strLt s t = true ∨ strLt t s = true
  | [], [], h => absurd rfl h
  | [], _ :: _, _ => by simp [strLt]
  | _ :: _, [], _ => by simp [strLt]
  | a :: as, b :: bs, h => by
    rcases Nat.lt_trichotomy a b with hab | hab | hab
    · simp [strLt, hab]
    · subst hab
      have hne : as ≠ bs := fun e => h (by rw [e])
      simpa [strLt] using strLt_total as bs hne
    · simp [strLt, hab]

/-- The comparison of `sortPorts` looks at the paths only. -/
theorem portLess_congr (a b c d : Port) (h1 : a.path = c.path) (h2 : b.path = d.path) :
    portLess a b = portLess c d := by
  simp [portLess, h1, h2]

theorem portLess_iff (a b : Port) :
    portLess a b = true ↔
      extractNum a.path < extractNum b.path ∨
        (extractNum a.path = extractNum b.path ∧ strLt a.path b.path = true) := by
  unfold portLess
  by_cases he : extractNum a.path = extractNum b.path
  · simp [he]
  · simp [he]

theorem portLess_irrefl (a : Port) : portLess a a = false := by
  simp [portLess, strLt_irrefl]

theorem portLess_asymm (a b : Port) (h : portLess a b = true) : portLess b a = false := by
  by_contra hc
  have hc : portLess b a = true := by simpa using hc
  rw [portLess_iff] at h hc
  rcases h with h | ⟨h, h'⟩ <;> rcases hc with k | ⟨k, k'⟩
  · omega
  · omega
  · omega
  · have := strLt_asymm _ _ h'
    simp [k'] at this

theorem portLess_trans (a b c : Port) (h1 : portLess a b = true)
    (h2 : portLess b c = true) : portLess a c = true := by
  rw [portLess_iff] at h1 h2 ⊢
  rcases h1 with h | ⟨h, h'⟩ <;> rcases h2 with k | ⟨k, k'⟩
  · left; omega
  · left; omega
  · left; omega
  · right; exact ⟨h.trans k, strLt_trans _ _ _ h' k'⟩

theorem portLess_total (a b : Port) (h : a.path ≠ b.path) :
    portLess a b = true ∨ portLess b a = true := by
  rw [portLess_iff, portLess_iff]
  rcases lt_trichotomy (extractNum a.path) (extractNum b.path) with h1 | h1 | h1
  · exact Or.inl (Or.inl h1)
  · rcases strLt_total _ _ h with h2 | h2
    · exact Or.inl (Or.inr ⟨h1, h2⟩)
    · exact Or.inr (Or.inr ⟨h1.symm, h2⟩)
  · exact Or.inr (Or.inl h1)

theorem portLess_negTrans (a b c : Port) (h1 : portLess a b = false)
    (h2 : portLess b c = false) : portLess a c = false := by
  by_contra hac
  have hac : portLess a c = true := by simpa using hac
  by_cases e1 : a.path = b.path
  · rw [portLess_congr a c b c e1 rfl] at hac
    simp [hac] at h2
  · by_cases e2 : b.path = c.path
    · rw [portLess_congr a c a b rfl e2.symm] at hac
      simp [hac] at h1
    · have hba : portLess b a = true := by
        rcases portLess_total a b e1 with h | h
        · simp [h] at h1
        · exact h
      have hcb : portLess c b = true := by
        rcases portLess_total b c e2 with h | h
        · simp [h] at h2
        · exact h
      have hca := portLess_trans c b a hcb hba
      have := portLess_asymm a c hac
      simp [hca] at this

/-- The comparison of `sortPorts` meets the requirement of `sort.Slice`. -/
theorem portLess_strictWeak : StrictWeak portLess :=
  ⟨portLess_irrefl, portLess_trans, portLess_negTrans⟩

/-! ## Two instances of the library sort -/

theorem StrictWeak.asymm {less : Port → Port → Bool} (hw : StrictWeak less)
    (a b : Port) (h : less a b = true) : less b a = false := by
  by_contra hc
  have hc : less b a = true := by simpa using hc
  have := hw.trans a b a h hc
  simp [hw.irrefl a] at this

theorem insertLast_perm (less : Port → Port → Bool) (x : Port) (l : List Port) :
    (insertLast less x l).Perm (x :: l) := by
  induction l with
  | nil => exact List.Perm.refl _
  | cons y ys ih =>
    unfold insertLast
    split
    · exact List.Perm.refl _
    · exact (List.Perm.cons y ih).trans (List.Perm.swap x y ys)

theorem insertFirst_perm (less : Port → Port → Bool) (x : Port) (l : List Port) :
    (insertFirst less x l).Perm (x :: l) := by
  induction l with
  | nil => exact List.Perm.refl _
  | cons y ys ih =>
    unfold insertFirst
    split
    · exact (List.Perm.cons y ih).trans (List.Perm.swap x y ys)
    · exact List.Perm.refl _

theorem foldl_insert_perm (ins : Port → List Port → List Port)
    (hins : ∀ x l, (ins x l).Perm (x :: l)) (l acc : List Port) :
    (l.foldl (fun acc x => ins x acc) acc).Perm (acc ++ l) := by
  induction l generalizing acc with
  | nil => simp
  | cons x t ih =>
    simp only [List.foldl_cons]
    refine (ih (ins x acc)).trans ?_
    refine (List.Perm.append_right t (hins x acc)).trans ?_
    simpa using (@List.perm_middle _ x acc t).symm

theorem foldl_insert_sorted (R : Port → Port → Prop) (ins : Port → List Port → List Port)
    (hins : ∀ x l, l.Pairwise R → (ins x l).Pairwise R) (l acc : List Port)
    (hacc : acc.Pairwise R) :
    (l.foldl (fun acc x => ins x acc) acc).Pairwise R := by
  induction l generalizing acc with
  | nil => simpa using hacc
  | cons x t ih =>
    simp only [List.foldl_cons]
    exact ih (ins x acc) (hins x acc hacc)

theorem insertLast_sorted {less : Port → Port → Bool} (hw : StrictWeak less) (x : Port)
    (l : List Port) (hl : l.Pairwise (fun a b => less b a = false)) :
    (insertLast less x l).Pairwise (fun a b => less b a = false) := by
  induction l with
  | nil => simp [insertLast]
  | cons y ys ih =>
    rw [List.pairwise_cons] at hl
    unfold insertLast
    split
    · rename_i hxy
      refine List.pairwise_cons.2 ⟨?_, List.pairwise_cons.2 hl⟩
      intro z hz
      rcases List.mem_cons.1 hz with rfl | hz
      · exact hw.asymm x z hxy
      · by_contra hc
        have hc : less z x = true := by simpa using hc
        have := hw.trans z x y hc hxy
        simp [hl.1 z hz] at this
    · rename_i hxy
      have hxy : less x y = false := by simpa using hxy
      refine List.pairwise_cons.2 ⟨?_, ih hl.2⟩
      intro z hz
      rcases List.mem_cons.1 ((insertLast_perm less x ys).mem_iff.1 hz) with rfl | hz
      · exact hxy
      · exact hl.1 z hz

theorem insertFirst_sorted {less : Port → Port → Bool} (hw : StrictWeak less) (x : Port)
    (l : List Port) (hl : l.Pairwise (fun a b => less b a = false)) :
    (insertFirst less x l).Pairwise (fun a b => less b a = false) := by
  induction l with
  | nil => simp [insertFirst]
  | cons y ys ih =>
    rw [List.pairwise_cons] at hl
    unfold insertFirst
    split
    · rename_i hyx
      refine List.pairwise_cons.2 ⟨?_, ih hl.2⟩
      intro z hz
      rcases List.mem_cons.1 ((insertFirst_perm less x ys).mem_iff.1 hz) with rfl | hz
      · exact hw.asymm y z hyx
      · exact hl.1 z hz
    · rename_i hyx
      have hyx : less y x = false := by simpa using hyx
      refine List.pairwise_cons.2 ⟨?_, List.pairwise_cons.2 hl⟩
      intro z hz
      rcases List.mem_cons.1 hz with rfl | hz
      · exact hyx
      · exact hw.negTrans z y x (hl.1 z hz) hyx

/-- Insertion sort as a library sort. -/
def insertionSlice : SliceSort where
  run := insertionRun
  perm := fun less l => by
    simpa [insertionRun] using foldl_insert_perm (insertLast less) (insertLast_perm less) l []
  sorted := fun less l hw => by
    exact foldl_insert_sorted _ (insertLast less) (insertLast_sorted hw) l [] List.Pairwise.nil

/-- The reversing sort as a library sort. -/
def reversingSlice : SliceSort where
  run := reversingRun
  perm := fun less l => by
    simpa [reversingRun] using
      foldl_insert_perm (insertFirst less) (insertFirst_perm less) l []
  sorted := fun less l hw => by
    exact foldl_insert_sorted _ (insertFirst less) (insertFirst_sorted hw) l [] List.Pairwise.nil

/-! ## The sort of package `sort` -/

theorem sinkLeft_eq_insertFirst (less : Port → Port → Bool) (x : Port) (l : List Port) :
    sinkLeft less x l = insertFirst (fun a b => less b a) x l := by
  induction l with
  | nil => rfl
  | cons y ys ih => simp [sinkLeft, insertFirst, ih]

theorem StrictWeak.flip {less : Port → Port → Bool} (hw : StrictWeak less) :
    StrictWeak (fun a b => less b a) :=
  ⟨fun a => hw.irrefl a, fun a b c h1 h2 => hw.trans c b a h2 h1,
    fun a b c h1 h2 => hw.negTrans c b a h2 h1⟩

theorem goInsertionSort_perm (less : Port → Port → Bool) (l : List Port) :
    (goInsertionSort less l).Perm l := by
  unfold goInsertionSort
  refine (List.reverse_perm _).trans ?_
  have h := foldl_insert_perm (insertFirst (fun a b => less b a))
    (insertFirst_perm (fun a b => less b a)) l []
  have e : (fun racc x => sinkLeft less x racc)
      = (fun racc x => insertFirst (fun a b => less b a) x racc) := by
    funext racc x
    exact sinkLeft_eq_insertFirst less x racc
  rw [e]
  simpa using h

theorem goInsertionSort_sorted {less : Port → Port → Bool} (hw : StrictWeak less)
    (l : List Port) : (goInsertionSort less l).Pairwise (fun a b => less b a = false) := by
  unfold goInsertionSort
  rw [List.pairwise_reverse]
  have e : (fun racc x => sinkLeft less x racc)
      = (fun racc x => insertFirst (fun a b => less b a) x racc) := by
    funext racc x
    exact sinkLeft_eq_insertFirst less x racc
  rw [e]
  exact foldl_insert_sorted _ (insertFirst (fun a b => less b a))
    (insertFirst_sorted hw.flip) l [] List.Pairwise.nil

theorem isOrdered_iff (less : Port → Port → Bool) (l : List Port) :
    isOrdered less l = true ↔ l.Pairwise (fun a b => less b a = false) := by
  induction l with
  | nil => simp [isOrdered]
  | cons a t ih =>
    simp only [isOrdered, Bool.and_eq_true, List.all_eq_true, Bool.not_eq_true', ih,
      List.pairwise_cons]

/-- Sinking the elements of an ordered slice moves none of them. -/
theorem foldl_sinkLeft_of_ordered (less : Port → Port → Bool) (l racc : List Port)
    (h : (racc.reverse ++ l).Pairwise (fun a b => less b a = false)) :
    l.foldl (fun racc x => sinkLeft less x racc) racc = l.reverse ++ racc := by
  induction l generalizing racc with
  | nil => simp
  | cons x t ih =>
    have hs : sinkLeft less x racc = x :: racc := by
      cases racc with
      | nil => rfl
      | cons y ys =>
        have hxy : less x y = false :=
          (List.pairwise_append.1 h).2.2 y (by simp) x (List.mem_cons_self x t)
        simp [sinkLeft, hxy]
    rw [List.foldl_cons, hs, ih]
    · simp
    · simpa using h

theorem goInsertionSort_of_ordered (less : Port → Port → Bool) (l : List Port)
    (h : l.Pairwise (fun a b => less b a = false)) : goInsertionSort less l = l := by
  unfold goInsertionSort
  rw [foldl_sinkLeft_of_ordered less l [] (by simpa using h)]
  simp

/-- The sort of package `sort` as a library sort. -/
def goSlice (S : SliceSort) : SliceSort where
  run := goSortRun S
  perm := fun less l => by
    unfold goSortRun
    split
    · exact goInsertionSort_perm less l
    · split
      · exact List.Perm.refl l
      · exact S.perm less l
  sorted := fun less l hw => by
    unfold goSortRun
    split
    · exact goInsertionSort_sorted hw l
    · split
      · rename_i h
        exact (isOrdered_iff less l).1 h
      · exact S.sorted less l hw

/-- The sort of package `sort` leaves an ordered slice as it is. -/
theorem goSortRun_of_ordered (S : SliceSort) (less : Port → Port → Bool) (l : List Port)
    (h : l.Pairwise (fun a b => less b a = false)) : goSortRun S less l = l := by
  unfold goSortRun
  split
  · exact goInsertionSort_of_ordered less l h
  · rw [if_pos ((isOrdered_iff less l).2 h)]

/-! ## What every library sort does to `sortPorts` -/

theorem sortPorts_perm (S : SliceSort) (l : List Port) : (sortPorts S l).Perm l :=
  S.perm portLess l

theorem sortPorts_sorted (S : SliceSort) (l : List Port) :
    (sortPorts S l).Pairwise (fun a b => portLess b a = false) :=
  S.sorted portLess l portLess_strictWeak

/-- Two ordered arrangements of the same ports coincide when ports sharing a
path are the same record. -/
theorem sorted_perm_unique (l1 l2 : List Port) (hp : l1.Perm l2)
    (h1 : l1.Pairwise (fun a b => portLess b a = false))
    (h2 : l2.Pairwise (fun a b => portLess b a = false))
    (hpath : ∀ a ∈ l1, ∀ b ∈ l1, a.path = b.path → a = b) : l1 = l2 := by
  induction l1 generalizing l2 with
  | nil => exact (List.Perm.nil_eq hp)
  | cons a t ih =>
    cases l2 with
    | nil => exact absurd hp.length_eq (by simp)
    | cons b u =>
      rw [List.pairwise_cons] at h1 h2
      have hab : a = b := by
        have ha : a ∈ b :: u := hp.mem_iff.1 (List.mem_cons_self a t)
        have hb : b ∈ a :: t := hp.mem_iff.2 (List.mem_cons_self b u)
        rcases List.mem_cons.1 ha with e | ha
        · exact e
        rcases List.mem_cons.1 hb with e | hb
        · exact e.symm
        have r1 := h1.1 b hb
        have r2 := h2.1 a ha
        apply hpath a (List.mem_cons_self a t) b (List.mem_cons_of_mem a hb)
        by_contra hne
        rcases portLess_total a b hne with h | h
        · simp [h] at r2
        · simp [h] at r1
      subst hab
      have ht : t.Perm u := List.Perm.cons_inv hp
      rw [ih u ht h1.2 h2.2 (fun x hx y hy => hpath x (List.mem_cons_of_mem a hx) y
        (List.mem_cons_of_mem a hy))]

/-! ## Maps -/

theorem mapGet_mapSet {V : Type} (m : GoMap V) (k k' : GoString) (v : V) :
    mapGet (mapSet m k v) k' = if k = k' then some v else mapGet m k' := by
  induction m with
  | nil => simp [mapSet, mapGet]
  | cons e t ih =>
    obtain ⟨k0, v0⟩ := e
    by_cases h0 : k0 = k
    · subst h0
      by_cases h1 : k0 = k'
      · simp [mapSet, mapGet, h1]
      · simp [mapSet, mapGet, h1]
    · by_cases h1 : k0 = k'
      · subst h1
        have h2 : ¬ k = k0 := fun e => h0 e.symm
        simp [mapSet, mapGet, h0, h2]
      · simp [mapSet, mapGet, h0, h1, ih]

theorem mem_mapKeys_mapSet {V : Type} (m : GoMap V) (k k' : GoString) (v : V) :
    k' ∈ mapKeys (mapSet m k v) ↔ k' = k ∨ k' ∈ mapKeys m := by
  induction m with
  | nil => simp [mapSet, mapKeys]
  | cons e t ih =>
    obtain ⟨k0, v0⟩ := e
    by_cases h0 : k0 = k
    · subst h0
      simp [mapSet, mapKeys]
    · have ih' : k' ∈ List.map Prod.fst (mapSet t k v) ↔ k' = k ∨ k' ∈ List.map Prod.fst t := ih
      simp only [mapSet, mapKeys, h0, if_false, List.map_cons, List.mem_cons, ih']
      tauto

theorem nodup_mapKeys_mapSet {V : Type} (m : GoMap V) (k : GoString) (v : V)
    (h : (mapKeys m).Nodup) : (mapKeys (mapSet m k v)).Nodup := by
  induction m with
  | nil => simp [mapSet, mapKeys]
  | cons e t ih =>
    obtain ⟨k0, v0⟩ := e
    have h' : k0 ∉ mapKeys t ∧ (mapKeys t).Nodup := by
      simpa [mapKeys] using h
    by_cases h0 : k0 = k
    · subst h0
      simpa [mapSet, mapKeys] using h
    · have hmem : k0 ∉ mapKeys (mapSet t k v) := by
        rw [mem_mapKeys_mapSet]
        rintro (e | e)
        · exact h0 e
        · exact h'.1 e
      have hnd := ih h'.2
      simp only [mapSet, h0, if_false]
      exact List.nodup_cons.2 ⟨hmem, hnd⟩

theorem mapGet_eq_none_iff {V : Type} (m : GoMap V) (k : GoString) :
    mapGet m k = none ↔ k ∉ mapKeys m := by
  induction m with
  | nil => simp [mapGet, mapKeys]
  | cons e t ih =>
    obtain ⟨k0, v0⟩ := e
    have ih' : mapGet t k = none ↔ k ∉ List.map Prod.fst t := ih
    by_cases h0 : k0 = k
    · subst h0
      simp [mapGet, mapKeys]
    · have h1 : ¬ k = k0 := fun e => h0 e.symm
      simp [mapGet, mapKeys, h0, h1, ih']

theorem mapGet_isSome_iff {V : Type} (m : GoMap V) (k : GoString) :
    (∃ v, mapGet m k = some v) ↔ k ∈ mapKeys m := by
  have := mapGet_eq_none_iff m k
  cases h : mapGet m k with
  | none => simp [h] at this ⊢; exact this
  | some v => simp [h] at this ⊢; exact this

/-- Filling a map from a list: which keys it holds. -/
theorem mem_mapKeys_foldl {α V : Type} (key : α → GoString) (val : α → V) (l : List α)
    (acc : GoMap V) (k : GoString) :
    k ∈ mapKeys (l.foldl (fun m x => mapSet m (key x) (val x)) acc) ↔
      k ∈ mapKeys acc ∨ k ∈ l.map key := by
  induction l generalizing acc with
  | nil => simp
  | cons x t ih =>
    simp only [List.foldl_cons, List.map_cons, List.mem_cons]
    rw [ih, mem_mapKeys_mapSet]
    tauto

/-- Filling a map from a list keeps the keys unique. -/
theorem nodup_mapKeys_foldl {α V : Type} (key : α → GoString) (val : α → V) (l : List α)
    (acc : GoMap V) (h : (mapKeys acc).Nodup) :
    (mapKeys (l.foldl (fun m x => mapSet m (key x) (val x)) acc)).Nodup := by
  induction l generalizing acc with
  | nil => simpa using h
  | cons x t ih =>
    simp only [List.foldl_cons]
    exact ih _ (nodup_mapKeys_mapSet acc (key x) (val x) h)

/-- Filling a map from a list: every stored value comes from an element with that key. -/
theorem mapGet_foldl {α V : Type} (key : α → GoString) (val : α → V) (l : List α)
    (acc : GoMap V) (k : GoString) (v : V)
    (h : mapGet (l.foldl (fun m x => mapSet m (key x) (val x)) acc) k = some v) :
    mapGet acc k = some v ∨ ∃ x ∈ l, key x = k ∧ val x = v := by
  induction l generalizing acc with
  | nil => exact Or.inl (by simpa using h)
  | cons x t ih =>
    simp only [List.foldl_cons] at h
    rcases ih _ h with h1 | ⟨y, hy, hk, hv⟩
    · rw [mapGet_mapSet] at h1
      by_cases hx : key x = k
      · rw [if_pos hx] at h1
        exact Or.inr ⟨x, List.mem_cons_self x t, hx, by simpa using h1⟩
      · rw [if_neg hx] at h1
        exact Or.inl h1
    · exact Or.inr ⟨y, List.mem_cons_of_mem x hy, hk, hv⟩

/-- Filling a map from a list: the last element with a key is the one stored. -/
theorem mapGet_foldl_last {α V : Type} (key : α → GoString) (val : α → V)
    (l1 l2 : List α) (x : α) (acc : GoMap V) (h2 : ∀ y ∈ l2, key y ≠ key x) :
    mapGet ((l1 ++ x :: l2).foldl (fun m x => mapSet m (key x) (val x)) acc) (key x)
      = some (val x) := by
  rw [List.foldl_append, List.foldl_cons]
  generalize hm : mapSet (List.foldl (fun m x => mapSet m (key x) (val x)) acc l1)
    (key x) (val x) = m0
  have h0 : mapGet m0 (key x) = some (val x) := by
    rw [← hm, mapGet_mapSet]; simp
  clear hm
  induction l2 generalizing m0 with
  | nil => simpa using h0
  | cons y t ih =>
    simp only [List.foldl_cons]
    apply ih (fun z hz => h2 z (List.mem_cons_of_mem y hz))
    rw [mapGet_mapSet, if_neg (h2 y (List.mem_cons_self y t))]
    exact h0

/-! ## The merge, key by key -/

theorem emitStep_eq (bm rm : GoMap Port) (final : List Port) (k : GoString) :
    emitStep bm rm final k = final ++ (emitOne bm rm k).toList := by
  unfold emitStep emitOne
  cases mapGet bm k <;> cases mapGet rm k <;> simp

theorem foldl_emitStep (bm rm : GoMap Port) (order : List GoString) (acc : List Port) :
    order.foldl (emitStep bm rm) acc = acc ++ order.filterMap (emitOne bm rm) := by
  induction order generalizing acc with
  | nil => simp
  | cons k t ih =>
    rw [List.foldl_cons, ih, emitStep_eq, List.filterMap_cons]
    cases emitOne bm rm k <;> simp

theorem emitAll_eq (bm rm : GoMap Port) (order : List GoString) :
    emitAll bm rm order = order.filterMap (emitOne bm rm) := by
  simp [emitAll, foldl_emitStep]

theorem mem_emitAll (bm rm : GoMap Port) (order : List GoString) (p : Port) :
    p ∈ emitAll bm rm order ↔ ∃ k ∈ order, emitOne bm rm k = some p := by
  rw [emitAll_eq, List.mem_filterMap]

theorem mem_keys_baseMapOf (base : List GoString) (k : GoString) :
    k ∈ mapKeys (baseMapOf base) ↔ k ∈ base.map normKey := by
  unfold baseMapOf
  rw [mem_mapKeys_foldl normKey (fun p => ({ path := p, source := srcSerial } : Port))]
  simp [mapKeys]

theorem mem_keys_regMapOf (reg : List Port) (k : GoString) :
    k ∈ mapKeys (regMapOf reg) ↔ k ∈ reg.map (fun r => normKey r.path) := by
  unfold regMapOf
  rw [mem_mapKeys_foldl (fun r : Port => normKey r.path) (fun r => r)]
  simp [mapKeys]

theorem mapGet_baseMapOf (base : List GoString) (k : GoString) (b : Port)
    (h : mapGet (baseMapOf base) k = some b) :
    b.path ∈ base ∧ normKey b.path = k ∧ b = { path := b.path, source := srcSerial } := by
  unfold baseMapOf at h
  rcases mapGet_foldl normKey (fun p => ({ path := p, source := srcSerial } : Port))
    base [] k b h with h0 | ⟨x, hx, hk, hv⟩
  · simp [mapGet] at h0
  · subst hv
    exact ⟨hx, hk, rfl⟩

theorem mapGet_regMapOf (reg : List Port) (k : GoString) (r : Port)
    (h : mapGet (regMapOf reg) k = some r) : r ∈ reg ∧ normKey r.path = k := by
  unfold regMapOf at h
  rcases mapGet_foldl (fun r : Port => normKey r.path) (fun r => r) reg [] k r h
    with h0 | ⟨x, hx, hk, hv⟩
  · simp [mapGet] at h0
  · subst hv
    exact ⟨hx, hk⟩

theorem mem_keys_keysOf (bm rm : GoMap Port) (k : GoString) :
    k ∈ mapKeys (keysOf bm rm) ↔ k ∈ mapKeys bm ∨ k ∈ mapKeys rm := by
  unfold keysOf
  rw [mem_mapKeys_foldl (fun k : GoString => k) (fun _ => ()),
    mem_mapKeys_foldl (fun k : GoString => k) (fun _ => ())]
  simp [mapKeys]

theorem nodup_keys_keysOf (bm rm : GoMap Port) : (mapKeys (keysOf bm rm)).Nodup := by
  unfold keysOf
  apply nodup_mapKeys_foldl (fun k : GoString => k) (fun _ => ())
  apply nodup_mapKeys_foldl (fun k : GoString => k) (fun _ => ())
  simp [mapKeys]

/-- Every record the emit loop appends for `k` has key `k`. -/
theorem emitOne_key (base : List GoString) (reg : List Port) (k : GoString) (p : Port)
    (h : emitOne (baseMapOf base) (regMapOf reg) k = some p) : normKey p.path = k := by
  unfold emitOne at h
  cases hb : mapGet (baseMapOf base) k with
  | none =>
    cases hr : mapGet (regMapOf reg) k with
    | none => simp [hb, hr] at h
    | some r =>
      simp [hb, hr] at h
      subst h
      exact (mapGet_regMapOf reg k r hr).2
  | some b =>
    cases hr : mapGet (regMapOf reg) k with
    | none =>
      simp [hb, hr] at h
      subst h
      exact (mapGet_baseMapOf base k b hb).2.1
    | some r =>
      simp [hb, hr] at h
      subst h
      exact (mapGet_regMapOf reg k r hr).2

/-- The emit loop appends a record for every key of the key set. -/
theorem emitOne_isSome (base : List GoString) (reg : List Port) (k : GoString)
    (h : k ∈ mapKeys (keysOf (baseMapOf base) (regMapOf reg))) :
    ∃ p, emitOne (baseMapOf base) (regMapOf reg) k = some p := by
  rw [mem_keys_keysOf] at h
  unfold emitOne
  cases hb : mapGet (baseMapOf base) k with
  | none =>
    cases hr : mapGet (regMapOf reg) k with
    | none =>
      rw [mapGet_eq_none_iff] at hb hr
      tauto
    | some r => exact ⟨r, rfl⟩
  | some b =>
    cases hr : mapGet (regMapOf reg) k with
    | none => exact ⟨b, rfl⟩
    | some r => exact ⟨_, rfl⟩

/-- The keys of the emitted records, in order, are the visited keys. -/
theorem emitAll_keys (base : List GoString) (reg : List Port) (order : List GoString)
    (h : ∀ k ∈ order, k ∈ mapKeys (keysOf (baseMapOf base) (regMapOf reg))) :
    (emitAll (baseMapOf base) (regMapOf reg) order).map (fun p => normKey p.path) = order := by
  rw [emitAll_eq]
  induction order with
  | nil => simp
  | cons k t ih =>
    obtain ⟨p, hp⟩ := emitOne_isSome base reg k (h k (List.mem_cons_self k t))
    rw [List.filterMap_cons, hp]
    simp only [List.map_cons]
    rw [emitOne_key base reg k p hp, ih (fun k' hk' => h k' (List.mem_cons_of_mem k hk'))]

theorem rangeOrder_mem {base : List GoString} {reg : List Port} {order : List GoString}
    (h : RangeOrder base reg order) (k : GoString) :
    k ∈ order ↔ k ∈ base.map normKey ∨ k ∈ reg.map (fun r => normKey r.path) := by
  rw [h.mem_iff, mem_keys_keysOf, mem_keys_baseMapOf, mem_keys_regMapOf]

theorem rangeOrder_nodup {base : List GoString} {reg : List Port} {order : List GoString}
    (h : RangeOrder base reg order) : order.Nodup :=
  h.nodup_iff.2 (nodup_keys_keysOf _ _)

theorem rangeOrder_someOrder (base : List GoString) (reg : List Port) :
    RangeOrder base reg (someOrder base reg) := List.Perm.refl _

/-- The keys of the inventory are an arrangement of the visited keys. -/
theorem listPorts_keys_perm (S : SliceSort) (base : List GoString) (reg : List Port)
    (order : List GoString) (h : RangeOrder base reg order) :
    ((listPorts S base reg order).1.map (fun p => normKey p.path)).Perm order := by
  have h1 := emitAll_keys base reg order (fun k hk => h.mem_iff.1 hk)
  have h2 := (sortPorts_perm S (emitAll (baseMapOf base) (regMapOf reg) order)).map
    (fun p => normKey p.path)
  rw [h1] at h2
  exact h2

/-- No two records of the inventory share a path. -/
theorem listPorts_paths_distinct (S : SliceSort) (base : List GoString) (reg : List Port)
    (order : List GoString) (h : RangeOrder base reg order) :
    ∀ a ∈ (listPorts S base reg order).1, ∀ b ∈ (listPorts S base reg order).1,
      a.path = b.path → a = b := by
  have hnd : ((listPorts S base reg order).1.map (fun p => normKey p.path)).Nodup :=
    (listPorts_keys_perm S base reg order h).nodup_iff.2 (rangeOrder_nodup h)
  intro a ha b hb hab
  exact List.inj_on_of_nodup_map hnd ha hb (by simp [hab])

theorem mem_listPorts (S : SliceSort) (base : List GoString) (reg : List Port)
    (order : List GoString) (p : Port) :
    p ∈ (listPorts S base reg order).1 ↔
      ∃ k ∈ order, emitOne (baseMapOf base) (regMapOf reg) k = some p := by
  rw [← mem_emitAll]
  exact (sortPorts_perm S _).mem_iff

/-- The inventory does not depend on the library sort nor on the visiting order. -/
theorem listPorts_unique (S1 S2 : SliceSort) (base : List GoString) (reg : List Port)
    (order1 order2 : List GoString) (h1 : RangeOrder base reg order1)
    (h2 : RangeOrder base reg order2) :
    (listPorts S1 base reg order1).1 = (listPorts S2 base reg order2).1 := by
  apply sorted_perm_unique
  · have hp : order1.Perm order2 := h1.trans h2.symm
    have hf := hp.filterMap (emitOne (baseMapOf base) (regMapOf reg))
    rw [← emitAll_eq, ← emitAll_eq] at hf
    exact ((sortPorts_perm S1 _).trans hf).trans (sortPorts_perm S2 _).symm
  · exact sortPorts_sorted S1 _
  · exact sortPorts_sorted S2 _
  · exact listPorts_paths_distinct S1 base reg order1 h1

/-- An ordered arrangement with distinct paths is what `sortPorts` returns. -/
theorem sortPorts_eq_of_sorted (S : SliceSort) (l l' : List Port) (hp : l.Perm l')
    (hs : l'.Pairwise (fun a b => portLess b a = false))
    (hpath : ∀ a ∈ l', ∀ b ∈ l', a.path = b.path → a = b) : sortPorts S l = l' := by
  apply sorted_perm_unique _ _ ((sortPorts_perm S l).trans hp) (sortPorts_sorted S l) hs
  intro a ha b hb
  exact hpath a (((sortPorts_perm S l).trans hp).mem_iff.1 ha)
    b (((sortPorts_perm S l).trans hp).mem_iff.1 hb)

/-! ## The number read from a path -/

theorem dropWhile_notDigit_append (pre rest : GoString)
    (h : ∀ b ∈ pre, isDigit b = false) :
    (pre ++ rest).dropWhile (fun b => !isDigit b) = rest.dropWhile (fun b => !isDigit b) := by
  induction pre with
  | nil => rfl
  | cons a t ih =>
    have ha : isDigit a = false := h a (List.mem_cons_self a t)
    simp only [List.cons_append, List.dropWhile_cons, ha, Bool.not_false, if_true]
    exact ih (fun b hb => h b (List.mem_cons_of_mem a hb))

theorem takeWhile_digit_append (run post : GoString)
    (h : ∀ b ∈ run, isDigit b = true) (hpost : ∀ c ∈ post.head?, isDigit c = false) :
    (run ++ post).takeWhile isDigit = run := by
  induction run with
  | nil =>
    cases post with
    | nil => rfl
    | cons c rest =>
      have hc : isDigit c = false := hpost c (by simp)
      simp [List.takeWhile_cons, hc]
  | cons a t ih =>
    have ha : isDigit a = true := h a (List.mem_cons_self a t)
    simp only [List.cons_append, List.takeWhile_cons, ha, if_true]
    rw [ih (fun b hb => h b (List.mem_cons_of_mem a hb))]

/-- The regular expression finds the first maximal run of digits. -/
theorem findDigits_of_firstRun (s run : GoString) (h : FirstRun s run) :
    findDigits s = run := by
  obtain ⟨pre, post, rfl, hpre, hne, hrun, hpost⟩ := h
  unfold findDigits
  rw [List.append_assoc, dropWhile_notDigit_append pre _ hpre]
  cases run with
  | nil => exact absurd rfl hne
  | cons a t =>
    have ha : isDigit a = true := hrun a (List.mem_cons_self a t)
    rw [List.cons_append, List.dropWhile_cons]
    simp only [ha, Bool.not_true]
    exact takeWhile_digit_append (a :: t) post hrun hpost

theorem findDigits_of_no_digit (s : GoString) (h : ∀ b ∈ s, isDigit b = false) :
    findDigits s = [] := by
  unfold findDigits
  have := dropWhile_notDigit_append s [] h
  rw [List.append_nil] at this
  rw [this]
  rfl

theorem foldl_decimal (m : GoString) (n : Nat) :
    m.foldl (fun n b => 10 * n + (b - 48)) n = n * 10 ^ m.length + digitsValue m := by
  induction m generalizing n with
  | nil => simp [digitsValue]
  | cons a t ih =>
    rw [List.foldl_cons, ih]
    have e : digitsValue (a :: t) = digitsValue t + 10 ^ t.length * (a - 48) := by
      simp [digitsValue, Nat.ofDigits_append]
    rw [e, List.length_cons, pow_succ]
    ring

/-- The loop of `Atoi` computes the number the digits denote. -/
theorem decimalValue_eq (m : GoString) : decimalValue m = digitsValue m := by
  unfold decimalValue
  rw [foldl_decimal]
  simp

theorem firstRunValue_of_firstRun (s run : GoString) (h : FirstRun s run) :
    firstRunValue s = digitsValue run := by
  unfold firstRunValue
  rw [findDigits_of_firstRun s run h, decimalValue_eq]

theorem maxInt_pos : (0 : Int) < maxInt := by decide

/-- What `extractNum` returns: the number of the first run of digits, capped at `maxInt`. -/
theorem extractNum_eq_min (s : GoString) :
    extractNum s = min (firstRunValue s : Int) maxInt := by
  have hpos := maxInt_pos
  unfold extractNum
  by_cases hs : s = []
  · subst hs
    simp [firstRunValue, findDigits, decimalValue]
    omega
  · rw [if_neg hs]
    by_cases hm : findDigits s = []
    · simp [hm, firstRunValue, decimalValue]
      omega
    · simp only [hm, if_false, atoi, firstRunValue]
      split
      · omega
      · omega

theorem extractNum_nonneg (s : GoString) : 0 ≤ extractNum s := by
  rw [extractNum_eq_min]
  have := maxInt_pos
  omega

theorem extractNum_of_no_digit (s : GoString) (h : ∀ b ∈ s, isDigit b = false) :
    extractNum s = 0 := by
  have := maxInt_pos
  rw [extractNum_eq_min, firstRunValue, findDigits_of_no_digit s h]
  simp [decimalValue]
  omega

theorem portLess_eq_false_iff (a b : Port) :
    portLess b a = false ↔
      extractNum a.path < extractNum b.path ∨
        (extractNum a.path = extractNum b.path ∧
          (a.path = b.path ∨ strLt a.path b.path = true)) := by
  constructor
  · intro h
    have h' : ¬ portLess b a = true := by simp [h]
    rw [portLess_iff] at h'
    rcases lt_trichotomy (extractNum a.path) (extractNum b.path) with h1 | h1 | h1
    · exact Or.inl h1
    · refine Or.inr ⟨h1, ?_⟩
      by_cases e : a.path = b.path
      · exact Or.inl e
      · rcases strLt_total _ _ e with h2 | h2
        · exact Or.inr h2
        · exact absurd (Or.inr ⟨h1.symm, h2⟩) h'
    · exact absurd (Or.inl h1) h'
  · intro h
    by_contra hc
    have hc : portLess b a = true := by simpa using hc
    rw [portLess_iff] at hc
    rcases h with h | ⟨h, e | h2⟩ <;> rcases hc with k | ⟨k, k2⟩
    · omega
    · omega
    · omega
    · rw [e, strLt_irrefl] at k2
      exact absurd k2 (by decide)
    · omega
    · have := strLt_asymm _ _ h2
      rw [k2] at this
      exact absurd this (by decide)

/-- In an ordered list, a port that compares below another stands before it. -/
theorem sublist_pair_of_sorted (L : List Port) (a b : Port)
    (hs : L.Pairwise (fun a b => portLess b a = false)) (ha : a ∈ L) (hb : b ∈ L)
    (hab : portLess a b = true) : List.Sublist [a, b] L ∧ ¬ List.Sublist [b, a] L := by
  constructor
  · have hne : a ≠ b := by
      rintro rfl
      rw [portLess_irrefl] at hab
      exact absurd hab (by decide)
    induction L with
    | nil => simp at ha
    | cons x t ih =>
      rw [List.pairwise_cons] at hs
      by_cases hxa : x = a
      · subst hxa
        rcases List.mem_cons.1 hb with e | hb'
        · exact absurd e.symm hne
        · exact List.Sublist.cons₂ x (List.singleton_sublist.2 hb')
      · have ha' : a ∈ t := by
          rcases List.mem_cons.1 ha with e | h
          · exact absurd e.symm hxa
          · exact h
        rcases List.mem_cons.1 hb with e | hb'
        · subst e
          have := hs.1 a ha'
          rw [hab] at this
          exact absurd this (by decide)
        · exact List.Sublist.cons x (ih hs.2 ha' hb')
  · intro hsub
    have := hs.sublist hsub
    rw [List.pairwise_cons] at this
    have h1 := this.1 a (by simp)
    rw [hab] at h1
    exact absurd h1 (by decide)

/-- The inventory is strictly increasing in the order of the sorter. -/
theorem listPorts_strictly_ordered (S : SliceSort) (base : List GoString) (reg : List Port)
    (order : List GoString) (h : RangeOrder base reg order) :
    (listPorts S base reg order).1.Pairwise (fun a b => portLess a b = true) := by
  have hnd : ((listPorts S base reg order).1.map (fun p => normKey p.path)).Nodup :=
    (listPorts_keys_perm S base reg order h).nodup_iff.2 (rangeOrder_nodup h)
  have hne : (listPorts S base reg order).1.Pairwise
      (fun a b => normKey a.path ≠ normKey b.path) := List.pairwise_map.1 hnd
  have hs : (listPorts S base reg order).1.Pairwise (fun a b => portLess b a = false) :=
    sortPorts_sorted S _
  refine (hs.and hne).imp ?_
  intro a b hab
  rcases portLess_total a b (fun e => hab.2 (by rw [e])) with h1 | h1
  · exact h1
  · rw [hab.1] at h1
    exact absurd h1 (by decide)

/-- The base map keeps, for a key, the record of the last base path with that key. -/
theorem mapGet_baseMapOf_last (l1 l2 : List GoString) (b : GoString)
    (hlast : ∀ y ∈ l2, normKey y ≠ normKey b) :
    mapGet (baseMapOf (l1 ++ b :: l2)) (normKey b)
      = some { path := b, source := srcSerial } :=
  mapGet_foldl_last normKey (fun p => ({ path := p, source := srcSerial } : Port))
    l1 l2 b [] hlast

theorem regMapOf_nil : regMapOf [] = [] := rfl

/-- A key of a list has a last element carrying it. -/
theorem exists_last_with_key {α : Type} (key : α → GoString) (l : List α) (k : GoString)
    (h : k ∈ l.map key) :
    ∃ l1 x l2, l = l1 ++ x :: l2 ∧ key x = k ∧ ∀ y ∈ l2, key y ≠ k := by
  induction l with
  | nil => simp at h
  | cons a t ih =>
    by_cases ht : k ∈ t.map key
    · obtain ⟨l1, x, l2, e, hx, hl2⟩ := ih ht
      exact ⟨a :: l1, x, l2, by rw [e]; rfl, hx, hl2⟩
    · have ha : key a = k := by
        rw [List.map_cons] at h
        rcases List.mem_cons.1 h with e | e
        · exact e.symm
        · exact absurd e ht
      refine ⟨[], a, t, rfl, ha, ?_⟩
      intro y hy e
      exact ht (by rw [← e]; exact List.mem_map_of_mem key hy)

theorem insertLast_of_not_less (less : Port → Port → Bool) (x : Port) (acc : List Port)
    (h : ∀ y ∈ acc, less x y = false) : insertLast less x acc = acc ++ [x] := by
  induction acc with
  | nil => rfl
  | cons y ys ih =>
    unfold insertLast
    rw [h y (List.mem_cons_self y ys)]
    simp only [Bool.false_eq_true, if_false, List.cons_append]
    rw [ih (fun z hz => h z (List.mem_cons_of_mem y hz))]

theorem foldl_insertLast_of_sorted (less : Port → Port → Bool) (l acc : List Port)
    (h : (acc ++ l).Pairwise (fun a b => less b a = false)) :
    l.foldl (fun acc x => insertLast less x acc) acc = acc ++ l := by
  induction l generalizing acc with
  | nil => simp
  | cons x t ih =>
    have hx : ∀ y ∈ acc, less x y = false := by
      intro y hy
      exact (List.pairwise_append.1 h).2.2 y hy x (List.mem_cons_self x t)
    rw [List.foldl_cons, insertLast_of_not_less less x acc hx, ih]
    · simp
    · simpa using h

/-- The stable instance leaves an ordered list as it is, whatever its ties: with
it `sortPorts` is idempotent on every list. -/
theorem sortPorts_insertion_idempotent (l : List Port) :
    sortPorts insertionSlice (sortPorts insertionSlice l) = sortPorts insertionSlice l := by
  have h := sortPorts_sorted insertionSlice l
  exact foldl_insertLast_of_sorted portLess (sortPorts insertionSlice l) [] (by simpa using h)

/-! ## Prefixes and substrings -/

theorem hasPrefix_iff : ∀ s p : GoString, hasPrefix s p = true ↔ p <+: s
  | _, [] => by simp [hasPrefix]
  | [], _ :: _ => by simp [hasPrefix]
  | c :: s, d :: p => by
    simp only [hasPrefix, Bool.and_eq_true, decide_eq_true_eq, List.cons_prefix_cons,
      hasPrefix_iff s p]
    constructor
    · rintro ⟨e, h⟩
      exact ⟨e.symm, h⟩
    · rintro ⟨e, h⟩
      exact ⟨e.symm, h⟩

theorem contains_iff (s sub : GoString) : contains s sub = true ↔ sub <:+: s := by
  induction s with
  | nil =>
    simp only [contains, hasPrefix_iff]
    constructor
    · intro h
      exact h.isInfix
    · intro h
      rw [List.eq_nil_of_infix_nil h]
  | cons c t ih =>
    simp only [contains, Bool.or_eq_true, hasPrefix_iff, ih, List.infix_cons_iff]

/-- A substring that does not hold the byte `c` lies on one side of `c`. -/
theorem infix_split_of_not_mem (x A B : GoString) (c : Nat) (hc : c ∉ x)
    (h : x <:+: A ++ c :: B) : x <:+: A ∨ x <:+: B := by
  induction A with
  | nil =>
    rw [List.nil_append, List.infix_cons_iff] at h
    rcases h with h | h
    · cases x with
      | nil => exact Or.inl List.nil_infix
      | cons a x' =>
        rw [List.cons_prefix_cons] at h
        exact absurd (by rw [h.1]; exact List.mem_cons_self _ _) hc
    · exact Or.inr h
  | cons a A' ih =>
    rw [List.cons_append, List.infix_cons_iff] at h
    rcases h with h | h
    · by_cases hl : x.length ≤ (a :: A').length
      · have hA : a :: A' <+: a :: (A' ++ c :: B) := by
          rw [← List.cons_append]
          exact List.prefix_append _ _
        exact Or.inl (List.prefix_of_prefix_length_le h hA hl).isInfix
      · have hA : a :: A' ++ [c] <+: a :: (A' ++ c :: B) := by
          have : a :: (A' ++ c :: B) = (a :: A' ++ [c]) ++ B := by simp
          rw [this]
          exact List.prefix_append _ _
        have hl' : (a :: A' ++ [c]).length ≤ x.length := by
          simp only [List.length_append, List.length_cons, List.length_nil] at hl ⊢
          omega
        have := List.prefix_of_prefix_length_le hA h hl'
        exact absurd (this.subset (by simp)) hc
    · rcases ih h with h' | h'
      · exact Or.inl (List.infix_cons h')
      · exact Or.inr h'

/-- A substring whose first byte is not in `A` starts after `A`. -/
theorem infix_of_head_not_mem (a : Nat) (x A B : GoString) (ha : a ∉ A)
    (h : a :: x <:+: A ++ B) : a :: x <:+: B := by
  induction A with
  | nil => simpa using h
  | cons b A' ih =>
    rw [List.cons_append, List.infix_cons_iff] at h
    rcases h with h | h
    · rw [List.cons_prefix_cons] at h
      exact absurd (by rw [h.1]; exact List.mem_cons_self _ _) ha
    · exact ih (fun hm => ha (List.mem_cons_of_mem b hm)) h

/-! ## Trimming -/

theorem stripN_suffix (pats : List GoString) (n : Nat) (s : GoString) :
    stripN pats n s <:+ s := by
  induction n generalizing s with
  | zero => exact List.suffix_refl s
  | succ n ih =>
    unfold stripN
    split
    · exact (ih _).trans (List.drop_suffix _ _)
    · exact List.suffix_refl s

theorem stripN_of_unmatched (pats : List GoString) (n : Nat) (s : GoString)
    (h : ∀ p ∈ pats, ¬ p <+: s) : stripN pats n s = s := by
  cases n with
  | zero => rfl
  | succ n =>
    unfold stripN
    have : pats.find? (fun p => hasPrefix s p) = none := by
      rw [List.find?_eq_none]
      intro p hp
      rw [hasPrefix_iff]
      exact h p hp
    rw [this]

theorem stripN_unmatched (pats : List GoString) (hne : ∀ p ∈ pats, p ≠ [])
    (n : Nat) (s : GoString) (hn : s.length ≤ n) :
    ∀ p ∈ pats, ¬ p <+: stripN pats n s := by
  induction n generalizing s with
  | zero =>
    intro p hp hpre
    have hs : s = [] := List.length_eq_zero.1 (Nat.le_zero.1 hn)
    subst hs
    exact hne p hp (List.prefix_nil.1 hpre)
  | succ n ih =>
    unfold stripN
    split
    · rename_i q hq
      have hqm := List.mem_of_find?_eq_some hq
      have hqp : q <+: s := (hasPrefix_iff s q).1 (List.find?_some hq)
      have hql : 0 < q.length := List.length_pos.2 (hne q hqm)
      have := hqp.length_le
      apply ih
      rw [List.length_drop]
      omega
    · rename_i hq
      intro p hp
      have := List.find?_eq_none.1 hq p hp
      rw [hasPrefix_iff] at this
      exact this

theorem RunOf.append {pats : List GoString} {a b : GoString} (ha : RunOf pats a)
    (hb : RunOf pats b) : RunOf pats (a ++ b) := by
  induction ha with
  | nil => simpa using hb
  | cons p l hp _ ih =>
    rw [List.append_assoc]
    exact RunOf.cons p _ hp ih

theorem RunOf.reverse {pats : List GoString} {a : GoString} (ha : RunOf pats a) :
    RunOf (pats.map List.reverse) a.reverse := by
  induction ha with
  | nil => exact RunOf.nil
  | cons p l hp _ ih =>
    rw [List.reverse_append]
    have h1 : RunOf (pats.map List.reverse) p.reverse := by
      have := RunOf.cons p.reverse [] (List.mem_map_of_mem List.reverse hp)
        (RunOf.nil : RunOf (pats.map List.reverse) [])
      simpa using this
    exact ih.append h1

theorem find_prefix_unique (pats : List GoString)
    (hfree : ∀ p ∈ pats, ∀ q ∈ pats, p <+: q → p = q) (p : GoString) (hp : p ∈ pats)
    (rest : GoString) :
    pats.find? (fun q => hasPrefix (p ++ rest) q) = some p := by
  cases h : pats.find? (fun q => hasPrefix (p ++ rest) q) with
  | none =>
    have := List.find?_eq_none.1 h p hp
    rw [hasPrefix_iff] at this
    exact absurd (List.prefix_append p rest) this
  | some q =>
    have hqm := List.mem_of_find?_eq_some h
    have hqp : q <+: p ++ rest := (hasPrefix_iff _ q).1 (List.find?_some h)
    rcases List.prefix_or_prefix_of_prefix hqp (List.prefix_append p rest) with h1 | h1
    · rw [hfree q hqm p hp h1]
    · rw [hfree p hp q hqm h1]

/-- Stripping removes a leading run and stops at what follows it. -/
theorem stripN_run (pats : List GoString)
    (hfree : ∀ p ∈ pats, ∀ q ∈ pats, p <+: q → p = q) (hne : ∀ p ∈ pats, p ≠ [])
    (l X : GoString) (hl : RunOf pats l) (hX : ∀ p ∈ pats, ¬ p <+: X) (n : Nat)
    (hn : (l ++ X).length ≤ n) : stripN pats n (l ++ X) = X := by
  induction hl generalizing n with
  | nil => exact stripN_of_unmatched pats n X hX
  | cons p l hp _ ih =>
    have hpl : 0 < p.length := List.length_pos.2 (hne p hp)
    cases n with
    | zero =>
      simp only [List.length_append] at hn
      omega
    | succ n =>
      unfold stripN
      rw [List.append_assoc, find_prefix_unique pats hfree p hp]
      simp only [List.drop_left]
      apply ih
      simp only [List.length_append] at hn ⊢
      omega

/-! ## White space -/

theorem spaceRunes_ne_nil : ∀ p ∈ spaceRunes, p ≠ [] := by decide

theorem spaceRunes_prefix_free :
    ∀ p ∈ spaceRunes, ∀ q ∈ spaceRunes, p <+: q → p = q := by
  have h : ∀ p ∈ spaceRunes, ∀ q ∈ spaceRunes, hasPrefix q p = true → p = q := by decide
  intro p hp q hq hpq
  exact h p hp q hq ((hasPrefix_iff q p).2 hpq)

theorem spaceRunes_suffix_free :
    ∀ p ∈ spaceRunes.map List.reverse, ∀ q ∈ spaceRunes.map List.reverse,
      p <+: q → p = q := by
  have h : ∀ p ∈ spaceRunes.map List.reverse, ∀ q ∈ spaceRunes.map List.reverse,
      hasPrefix q p = true → p = q := by decide
  intro p hp q hq hpq
  exact h p hp q hq ((hasPrefix_iff q p).2 hpq)

theorem spaceRunes_rev_ne_nil : ∀ p ∈ spaceRunes.map List.reverse, p ≠ [] := by decide

/-- No byte inside a white space rune, after its first, starts a white space rune. -/
theorem spaceRunes_sync :
    ∀ p ∈ spaceRunes, ∀ q ∈ spaceRunes, ∀ k < p.length, 0 < k →
      (p.drop k).head? ≠ q.head? := by decide

/-- A white space rune of several bytes has no ASCII byte. -/
theorem spaceRunes_wide : ∀ p ∈ spaceRunes, 2 ≤ p.length → ∀ b ∈ p, 128 ≤ b := by decide

theorem spaceRunes_no_R : ∀ p ∈ spaceRunes, 82 ∉ p := by decide

theorem mem_spaceRunes_of_isReSpace (b : Nat) (h : isReSpace b = true) :
    [b] ∈ spaceRunes := by
  simp only [isReSpace, Bool.or_eq_true, decide_eq_true_eq] at h
  rcases h with (((h | h) | h) | h) | h <;> subst h <;> decide

theorem isReSpace_lt (b : Nat) (h : isReSpace b = true) : b < 128 := by
  simp only [isReSpace, Bool.or_eq_true, decide_eq_true_eq] at h
  omega

theorem trimLeft_noLead (s : GoString) : NoLeadSpace (trimLeft s) :=
  stripN_unmatched spaceRunes spaceRunes_ne_nil s.length s (Nat.le_refl _)

theorem trimLeft_suffix (s : GoString) : trimLeft s <:+ s :=
  stripN_suffix spaceRunes s.length s

theorem trimRight_initial (s : GoString) : trimRight s <+: s := by
  have := stripN_suffix (spaceRunes.map List.reverse) s.length s.reverse
  rw [← List.reverse_prefix] at this
  simpa [trimRight] using this

theorem trimRight_noTrail (s : GoString) : NoTrailSpace (trimRight s) := by
  intro p hp hsuf
  have h := stripN_unmatched (spaceRunes.map List.reverse) spaceRunes_rev_ne_nil
    s.length s.reverse (by simp) p.reverse (List.mem_map_of_mem List.reverse hp)
  apply h
  rw [← List.reverse_suffix]
  simpa [trimRight] using hsuf

theorem trimSpace_noTrail (s : GoString) : NoTrailSpace (trimSpace s) :=
  trimRight_noTrail _

theorem trimSpace_noLead (s : GoString) : NoLeadSpace (trimSpace s) := by
  intro p hp hpre
  exact trimLeft_noLead s p hp (hpre.trans (trimRight_initial _))

theorem trimLeft_of_noLead (s : GoString) (h : NoLeadSpace s) : trimLeft s = s :=
  stripN_of_unmatched spaceRunes s.length s h

theorem trimRight_of_noTrail (s : GoString) (h : NoTrailSpace s) : trimRight s = s := by
  unfold trimRight
  rw [stripN_of_unmatched, List.reverse_reverse]
  intro p hp hpre
  obtain ⟨q, hq, rfl⟩ := List.mem_map.1 hp
  exact h q hq (List.reverse_prefix.1 hpre)

theorem trimLeft_run (l X : GoString) (hl : SpaceRun l) (hX : NoLeadSpace X) :
    trimLeft (l ++ X) = X :=
  stripN_run spaceRunes spaceRunes_prefix_free spaceRunes_ne_nil l X hl hX _ (Nat.le_refl _)

theorem trimRight_run (l X : GoString) (hl : SpaceRun l) (hX : NoTrailSpace X) :
    trimRight (X ++ l) = X := by
  unfold trimRight
  rw [List.reverse_append, stripN_run (spaceRunes.map List.reverse) spaceRunes_suffix_free
    spaceRunes_rev_ne_nil l.reverse X.reverse (RunOf.reverse hl), List.reverse_reverse]
  · intro p hp hpre
    obtain ⟨q, hq, rfl⟩ := List.mem_map.1 hp
    exact hX q hq (List.reverse_prefix.1 hpre)
  · simp only [List.length_append, List.length_reverse]
    omega

theorem runOf_head (pats : List GoString) (hne : ∀ p ∈ pats, p ≠ []) (l : GoString)
    (hl : RunOf pats l) (h : Nat) (hh : l.head? = some h) :
    ∃ q ∈ pats, q.head? = some h := by
  cases hl with
  | nil => simp at hh
  | cons p l' hp _ =>
    refine ⟨p, hp, ?_⟩
    cases p with
    | nil => exact absurd rfl (hne [] hp)
    | cons a p' => simpa using hh

/-- What does not begin with white space still does not when a rune of white
space, or nothing, is put after it. -/
theorem noLead_append (X rest : GoString) (hne : X ≠ []) (hX : NoLeadSpace X)
    (hrest : ∀ h, rest.head? = some h → ∃ q ∈ spaceRunes, q.head? = some h) :
    NoLeadSpace (X ++ rest) := by
  intro p hp hpre
  rcases List.prefix_or_prefix_of_prefix hpre (List.prefix_append X rest) with h1 | h1
  · exact hX p hp h1
  · obtain ⟨t, rfl⟩ := h1
    have ht : t <+: rest := (List.prefix_append_right_inj X).1 hpre
    cases t with
    | nil => exact hX _ hp (by simp)
    | cons a t' =>
      obtain ⟨r, hr⟩ := ht
      obtain ⟨q, hq, hqh⟩ := hrest a (by rw [← hr]; rfl)
      have hk : X.length < (X ++ a :: t').length := by simp
      have hpos : 0 < X.length := List.length_pos.2 hne
      apply spaceRunes_sync _ hp q hq X.length hk hpos
      rw [List.drop_left, hqh]
      rfl

/-- What does not end with white space still does not when it is put after a
string that ends with an ASCII byte. -/
theorem noTrail_append (Y V : GoString) (hne : V ≠ []) (hV : NoTrailSpace V)
    (hY : ∀ b, Y.getLast? = some b → b < 128) : NoTrailSpace (Y ++ V) := by
  intro p hp hsuf
  rcases List.suffix_or_suffix_of_suffix hsuf (List.suffix_append Y V) with h1 | h1
  · exact hV p hp h1
  · obtain ⟨t, rfl⟩ := h1
    have ht : t <:+ Y := by
      obtain ⟨r, hr⟩ := hsuf
      rw [← List.append_assoc] at hr
      exact ⟨r, List.append_cancel_right hr⟩
    rcases List.eq_nil_or_concat t with rfl | ⟨t', b, rfl⟩
    · exact hV _ hp (by simp)
    · rw [List.concat_eq_append] at ht hp
      obtain ⟨r, hr⟩ := ht
      have hb : b < 128 := hY b (by rw [← hr, ← List.append_assoc]; simp)
      have hlen : 2 ≤ (t' ++ [b] ++ V).length := by
        have := List.length_pos.2 hne
        simp only [List.length_append, List.length_cons, List.length_nil]
        omega
      have := spaceRunes_wide _ hp hlen b (by simp)
      omega

/-- `strings.TrimSpace` removes the white space around a text that neither
begins nor ends with white space, and nothing else. -/
theorem trimSpace_run (lead X trail : GoString) (hlead : SpaceRun lead)
    (htrail : SpaceRun trail) (hne : X ≠ []) (hX1 : NoLeadSpace X) (hX2 : NoTrailSpace X) :
    trimSpace (lead ++ X ++ trail) = X := by
  unfold trimSpace
  rw [List.append_assoc, trimLeft_run lead (X ++ trail) hlead
    (noLead_append X trail hne hX1 (runOf_head spaceRunes spaceRunes_ne_nil trail htrail)),
    trimRight_run trail X htrail hX2]

/-! ## The pattern `\s+REG_SZ\s+(.+)$` -/

/-- A prefix that does not hold the byte `c` ends before `c`. -/
theorem prefix_of_not_mem (x A B : GoString) (c : Nat) (hc : c ∉ x)
    (h : x <+: A ++ c :: B) : x <+: A := by
  by_cases hl : x.length ≤ A.length
  · exact List.prefix_of_prefix_length_le h (List.prefix_append _ _) hl
  · have hA : A ++ [c] <+: A ++ c :: B := by
      have : A ++ c :: B = (A ++ [c]) ++ B := by simp
      rw [this]
      exact List.prefix_append _ _
    have hl' : (A ++ [c]).length ≤ x.length := by
      simp only [List.length_append, List.length_cons, List.length_nil] at hl ⊢
      omega
    have := List.prefix_of_prefix_length_le hA h hl'
    exact absurd (this.subset (by simp)) hc

/-- Every way `\s+` matches takes a non-empty run of `\s` off the head. -/
theorem afterSpaces_sound (s c : GoString) (h : c ∈ afterSpaces s) :
    ∃ ws, ws ≠ [] ∧ (∀ b ∈ ws, isReSpace b = true) ∧ s = ws ++ c := by
  induction s with
  | nil => simp [afterSpaces] at h
  | cons a t ih =>
    unfold afterSpaces at h
    split at h
    · rename_i ha
      rcases List.mem_append.1 h with h1 | h1
      · obtain ⟨ws, _, hws, e⟩ := ih h1
        refine ⟨a :: ws, by simp, ?_, by rw [e]; rfl⟩
        intro b hb
        rcases List.mem_cons.1 hb with rfl | hb
        · exact ha
        · exact hws b hb
      · have e : c = t := by simpa using h1
        subst e
        exact ⟨[a], by simp, by simpa using ha, rfl⟩
    · simp at h

/-- The first way `\s+` is tried takes the whole run. -/
theorem afterSpaces_head (ws x : GoString) (hne : ws ≠ [])
    (hws : ∀ b ∈ ws, isReSpace b = true)
    (hx : ∀ h, x.head? = some h → isReSpace h = false) :
    ∃ more, afterSpaces (ws ++ x) = x :: more := by
  have hx0 : afterSpaces x = [] := by
    cases x with
    | nil => rfl
    | cons h t => simp [afterSpaces, hx h rfl]
  induction ws with
  | nil => exact absurd rfl hne
  | cons a ws' ih =>
    have ha : isReSpace a = true := hws a (List.mem_cons_self a ws')
    simp only [List.cons_append, afterSpaces, ha, if_true]
    cases ws' with
    | nil => exact ⟨[], by simp [hx0]⟩
    | cons b ws'' =>
      obtain ⟨more, hm⟩ := ih (by simp) (fun c hc => hws c (List.mem_cons_of_mem a hc))
      change ∃ more, afterSpaces (b :: ws'' ++ x) ++ [b :: ws'' ++ x] = x :: more
      rw [hm]
      exact ⟨more ++ [b :: ws'' ++ x], rfl⟩

/-- No way `\s+` matches gets past a byte that is not in `\s`. -/
theorem afterSpaces_keep (w0 rest : GoString) (z : Nat) (hz : isReSpace z = false)
    (c : GoString) (h : c ∈ afterSpaces (w0 ++ z :: rest)) :
    ∃ w', w' <:+ w0 ∧ c = w' ++ z :: rest := by
  induction w0 with
  | nil => simp [afterSpaces, hz] at h
  | cons a w0' ih =>
    rw [List.cons_append] at h
    unfold afterSpaces at h
    split at h
    · rcases List.mem_append.1 h with h1 | h1
      · obtain ⟨w', hw', e⟩ := ih h1
        exact ⟨w', hw'.trans (List.suffix_cons a w0'), e⟩
      · have e : c = w0' ++ z :: rest := by simpa using h1
        exact ⟨w0', List.suffix_cons a w0', e⟩
    · simp at h

theorem matchHere_none (s : GoString)
    (h : ∀ c ∈ afterSpaces s, hasPrefix c regSz = false) : matchHere s = none := by
  unfold matchHere
  rw [List.findSome?_eq_none_iff]
  intro c hc
  simp [h c hc]

/-- The search skips the positions from which the marker is not reached. -/
theorem findSubmatch_skip (w0 rest : GoString) (z : Nat) (hz : isReSpace z = false)
    (h : ∀ w', w' <:+ w0 → ¬ regSz <+: w' ++ z :: rest) :
    findSubmatch (w0 ++ z :: rest) = findSubmatch rest := by
  induction w0 with
  | nil =>
    have : matchHere (z :: rest) = none := by
      apply matchHere_none
      simp [afterSpaces, hz]
    simp [findSubmatch, this]
  | cons a w0' ih =>
    have : matchHere (a :: (w0' ++ z :: rest)) = none := by
      apply matchHere_none
      intro c hc
      obtain ⟨w', hw', e⟩ := afterSpaces_keep (a :: w0') rest z hz c hc
      have := h w' hw'
      rw [← hasPrefix_iff, ← e] at this
      simpa using this
    rw [List.cons_append]
    simp only [findSubmatch, this, Option.orElse]
    exact ih (fun w' hw' => h w' (hw'.trans (List.suffix_cons a w0')))

theorem regSz_not_space : ∀ h, regSz.head? = some h → isReSpace h = false := by decide

/-- The pattern at a run of `\s`, the marker, a run of `\s` and a text `g`
that does not begin with `\s`: group 1 is `g`. -/
theorem matchHere_marker (ws1 ws2 g : GoString) (h1 : ws1 ≠ [])
    (hw1 : ∀ b ∈ ws1, isReSpace b = true) (h2 : ws2 ≠ [])
    (hw2 : ∀ b ∈ ws2, isReSpace b = true) (hg : g ≠ [])
    (hg0 : ∀ h, g.head? = some h → isReSpace h = false) (hlf : 10 ∉ g) :
    matchHere (ws1 ++ (regSz ++ (ws2 ++ g))) = some g := by
  obtain ⟨more1, e1⟩ := afterSpaces_head ws1 (regSz ++ (ws2 ++ g)) h1 hw1 (by
    intro h hh
    exact regSz_not_space h (by simpa [regSz, ascii] using hh))
  obtain ⟨more2, e2⟩ := afterSpaces_head ws2 g h2 hw2 hg0
  have hp : hasPrefix (regSz ++ (ws2 ++ g)) regSz = true :=
    (hasPrefix_iff _ _).2 (List.prefix_append _ _)
  unfold matchHere
  rw [e1, List.findSome?_cons]
  simp only [hp, if_true, List.drop_left, e2, List.findSome?_cons, restOfText]
  simp [hg, hlf]

/-- Soundness of the search: a match splits the text at a run of `\s`, the
marker, a run of `\s`, and group 1, which runs to the end of the text. -/
theorem findSubmatch_sound (s g : GoString) (h : findSubmatch s = some g) :
    ∃ pre ws1 ws2, s = pre ++ (ws1 ++ (regSz ++ (ws2 ++ g))) ∧
      ws1 ≠ [] ∧ (∀ b ∈ ws1, isReSpace b = true) ∧
      ws2 ≠ [] ∧ (∀ b ∈ ws2, isReSpace b = true) ∧ g ≠ [] ∧ 10 ∉ g := by
  have hm : ∀ t, matchHere t = some g →
      ∃ ws1 ws2, t = ws1 ++ (regSz ++ (ws2 ++ g)) ∧
        ws1 ≠ [] ∧ (∀ b ∈ ws1, isReSpace b = true) ∧
        ws2 ≠ [] ∧ (∀ b ∈ ws2, isReSpace b = true) ∧ g ≠ [] ∧ 10 ∉ g := by
    intro t ht
    unfold matchHere at ht
    obtain ⟨c1, hc1, hf1⟩ := List.exists_of_findSome?_eq_some ht
    split at hf1
    · rename_i hp
      obtain ⟨c2, hc2, hf2⟩ := List.exists_of_findSome?_eq_some hf1
      obtain ⟨ws1, n1, hw1, e1⟩ := afterSpaces_sound t c1 hc1
      obtain ⟨ws2, n2, hw2, e2⟩ := afterSpaces_sound _ c2 hc2
      obtain ⟨r, hr⟩ := (hasPrefix_iff _ _).1 hp
      unfold restOfText at hf2
      split at hf2
      · rename_i hc
        have e : c2 = g := by simpa using hf2
        subst e
        refine ⟨ws1, ws2, ?_, n1, hw1, n2, hw2, hc.1, hc.2⟩
        rw [e1, ← hr, ← e2, ← hr, List.drop_left]
      · simp at hf2
    · simp at hf1
  induction s with
  | nil =>
    obtain ⟨ws1, ws2, e, r⟩ := hm [] (by simpa [findSubmatch] using h)
    exact ⟨[], ws1, ws2, by simpa using e, r⟩
  | cons a t ih =>
    unfold findSubmatch at h
    cases hmt : matchHere (a :: t) with
    | some g' =>
      rw [hmt] at h
      have e : g' = g := by simpa [Option.orElse] using h
      subst e
      obtain ⟨ws1, ws2, e, r⟩ := hm _ hmt
      exact ⟨[], ws1, ws2, by simpa using e, r⟩
    | none =>
      rw [hmt] at h
      obtain ⟨pre, ws1, ws2, e, r⟩ := ih (by simpa [Option.orElse] using h)
      exact ⟨a :: pre, ws1, ws2, by rw [e]; rfl, r⟩

/-- What stands before the first two consecutive spaces. -/
theorem beforeDoubleSpace_eq (N more : GoString) (hne : N ≠ [])
    (h2 : ¬ [32, 32] <:+: N) (hlast : ¬ [32] <:+ N) :
    beforeDoubleSpace (N ++ 32 :: 32 :: more) = N := by
  induction N with
  | nil => exact absurd rfl hne
  | cons a N' ih =>
    cases N' with
    | nil =>
      have ha : a ≠ 32 := by
        intro e
        apply hlast
        rw [e]
      simp [beforeDoubleSpace, ha]
    | cons b N'' =>
      have hab : ¬ (a = 32 ∧ b = 32) := by
        rintro ⟨rfl, rfl⟩
        exact h2 ⟨[], N'', rfl⟩
      simp only [List.cons_append, beforeDoubleSpace, hab, if_false]
      change a :: beforeDoubleSpace (b :: N'' ++ 32 :: 32 :: more) = _
      rw [ih (by simp) (fun h => h2 (List.infix_cons h))
        (fun h => hlast (h.trans (List.suffix_cons a _)))]

theorem replaceCRLF_of_no_lf : ∀ s : GoString, 10 ∉ s → replaceCRLF s = s
  | [], _ => rfl
  | [_], _ => rfl
  | c :: d :: rest, h => by
    have hd : d ≠ 10 := fun e => h (by simp [e])
    have hcd : ¬ (c = 13 ∧ d = 10) := fun e => hd e.2
    simp only [replaceCRLF, hcd, if_false]
    rw [replaceCRLF_of_no_lf (d :: rest) (fun hm => h (List.mem_cons_of_mem c hm))]

theorem splitLines_of_no_lf (s : GoString) (h : 10 ∉ s) : splitLines s = [s] := by
  induction s with
  | nil => rfl
  | cons c t ih =>
    have hc : c ≠ 10 := fun e => h (by simp [e])
    simp only [splitLines, hc, if_false]
    rw [ih (fun hm => h (List.mem_cons_of_mem c hm))]

theorem regLines_of_no_lf (s : GoString) (h : 10 ∉ s) : regLines s = [s] := by
  unfold regLines
  rw [replaceCRLF_of_no_lf s h, splitLines_of_no_lf s h]

/-! ## The line parser -/

/-- What a line that yields a record looks like, and the record. -/
theorem parseLine_eq_some (U : UnicodeLower) (ln : GoString) (r : Port)
    (h : parseLine U ln = some r) :
    contains ln regSz = true ∧
      ∃ g, findSubmatch ln = some g ∧ trimSpace g ≠ [] ∧
        r = { path := trimSpace g,
              friendlyName := trimSpace (beforeDoubleSpace (trimSpace ln)),
              devicePath := trimSpace (beforeDoubleSpace (trimSpace ln)),
              source := srcRegistry,
              isVirtual := virtualMarkers.any (fun m =>
                contains (toLower U (trimSpace (beforeDoubleSpace (trimSpace ln))
                  ++ ascii " " ++ trimSpace g)) m) } := by
  unfold parseLine at h
  split at h
  · simp at h
  · rename_i hc
    refine ⟨by simpa using hc, ?_⟩
    split at h
    · simp at h
    · rename_i g hg
      simp only at h
      split at h
      · simp at h
      · rename_i hne
        exact ⟨g, hg, hne, (Option.some.inj h).symm⟩

theorem mem_listFromWindowsRegistry (S : SliceSort) (U : UnicodeLower) (out : GoString)
    (failed : Bool) (r : Port) :
    r ∈ listFromWindowsRegistry S U out failed ↔
      failed = false ∧ ∃ ln ∈ regLines out, parseLine U ln = some r := by
  unfold listFromWindowsRegistry
  cases failed with
  | true => simp
  | false =>
    simp only [Bool.false_eq_true, if_false, true_and]
    rw [(sortPorts_perm S _).mem_iff, List.mem_filterMap]

theorem findSubmatch_of_matchHere (s g : GoString) (h : matchHere s = some g) :
    findSubmatch s = some g := by
  cases s with
  | nil => simpa [findSubmatch] using h
  | cons a t => simp [findSubmatch, h, Option.orElse]

theorem runOf_spaceRunes_no_R (l : GoString) (h : SpaceRun l) : 82 ∉ l := by
  induction h with
  | nil => simp
  | cons p l hp _ ih =>
    intro hm
    rcases List.mem_append.1 hm with h1 | h1
    · exact spaceRunes_no_R p hp h1
    · exact ih h1

theorem head_not_space_of_noLead (V : GoString) (hV : NoLeadSpace V) :
    ∀ h, V.head? = some h → isReSpace h = false := by
  intro h hh
  cases V with
  | nil => simp at hh
  | cons a t =>
    have e : a = h := by simpa using hh
    subst e
    by_contra hc
    have hc : isReSpace a = true := by simpa using hc
    exact hV [a] (mem_spaceRunes_of_isReSpace a hc) ⟨t, rfl⟩

/-- The record the line parser builds from a line of the form the registry
query prints: white space, a value name `N`, two spaces or more, the marker,
a run of `\s`, the value `V`, white space. -/
theorem parseLine_of_form (U : UnicodeLower) (lead N sep V trail : GoString) (n : Nat)
    (hlead : SpaceRun lead) (htrail : SpaceRun trail) (hn : 2 ≤ n)
    (hsep : sep ≠ []) (hsep' : ∀ b ∈ sep, isReSpace b = true)
    (hN : N ≠ []) (hN1 : NoLeadSpace N) (hN2 : NoTrailSpace N)
    (hN3 : ¬ [32, 32] <:+: N) (hN4 : ¬ regSz <:+: N)
    (hV : V ≠ []) (hV1 : NoLeadSpace V) (hV2 : NoTrailSpace V)
    (hlf : 10 ∉ V ++ trail) :
    parseLine U (lead ++ N ++ List.replicate n 32 ++ regSz ++ sep ++ V ++ trail) =
      some { path := V, friendlyName := N, devicePath := N, source := srcRegistry,
             isVirtual := virtualMarkers.any (fun m =>
               contains (toLower U (N ++ ascii " " ++ V)) m) } := by
  obtain ⟨k, rfl⟩ : ∃ k, n = k + 2 := ⟨n - 2, by omega⟩
  have hrep : List.replicate (k + 2) 32 = 32 :: 32 :: List.replicate k 32 := rfl
  have hspaces : ∀ b ∈ List.replicate (k + 2) 32, isReSpace b = true := by
    intro b hb
    rw [List.eq_of_mem_replicate hb]
    rfl
  -- the search finds the marker and the group is `V ++ trail`
  have hf : findSubmatch (lead ++ N ++ List.replicate (k + 2) 32 ++ regSz ++ sep ++ V ++ trail)
      = some (V ++ trail) := by
    rcases List.eq_nil_or_concat N with e | ⟨N0, z, e⟩
    · exact absurd e hN
    · rw [List.concat_eq_append] at e
      have hz : isReSpace z = false := by
        by_contra hc
        have hc : isReSpace z = true := by simpa using hc
        exact hN2 [z] (mem_spaceRunes_of_isReSpace z hc) ⟨N0, e.symm⟩
      have hline : lead ++ N ++ List.replicate (k + 2) 32 ++ regSz ++ sep ++ V ++ trail
          = (lead ++ N0) ++ z :: (List.replicate (k + 2) 32 ++ (regSz ++ (sep ++ (V ++ trail)))) := by
        rw [e]
        simp
      rw [hline, findSubmatch_skip _ _ z hz]
      · have hm := matchHere_marker (List.replicate (k + 2) 32) sep (V ++ trail) (by simp)
          hspaces hsep hsep' (by simp [hV]) (by
            intro h hh
            apply head_not_space_of_noLead V hV1 h
            cases V with
            | nil => exact absurd rfl hV
            | cons a t => simpa using hh) hlf
        exact findSubmatch_of_matchHere _ _ hm
      · intro w' hw' hpre
        have h32 : (32 : Nat) ∉ regSz := by decide
        rw [hrep] at hpre
        have h1 : regSz <+: w' ++ [z] := by
          apply prefix_of_not_mem regSz (w' ++ [z]) (32 :: List.replicate k 32 ++
            (regSz ++ (sep ++ (V ++ trail)))) 32 h32
          simpa [List.append_assoc] using hpre
        have h2 : w' ++ [z] <:+ lead ++ N := by
          rw [e, ← List.append_assoc]
          obtain ⟨t, ht⟩ := hw'
          exact ⟨t, by rw [← ht]; simp⟩
        have h3 : regSz <:+: lead ++ N := h1.isInfix.trans h2.isInfix
        exact hN4 (infix_of_head_not_mem 82 _ lead N (runOf_spaceRunes_no_R lead hlead) h3)
  have hc : contains (lead ++ N ++ List.replicate (k + 2) 32 ++ regSz ++ sep ++ V ++ trail)
      regSz = true := by
    rw [contains_iff]
    exact ⟨lead ++ N ++ List.replicate (k + 2) 32, sep ++ V ++ trail, by
      simp only [List.append_assoc]⟩
  have ht : trimSpace (V ++ trail) = V := by
    have := trimSpace_run [] V trail RunOf.nil htrail hV hV1 hV2
    simpa using this
  have hx : trimSpace (lead ++ N ++ List.replicate (k + 2) 32 ++ regSz ++ sep ++ V ++ trail)
      = N ++ 32 :: 32 :: (List.replicate k 32 ++ regSz ++ sep ++ V) := by
    have hX1 : NoLeadSpace (N ++ 32 :: 32 :: (List.replicate k 32 ++ regSz ++ sep ++ V)) := by
      apply noLead_append N _ hN hN1
      intro h hh
      exact ⟨[32], by decide, by simpa using hh⟩
    have hX2 : NoTrailSpace (N ++ 32 :: 32 :: (List.replicate k 32 ++ regSz ++ sep ++ V)) := by
      have e : N ++ 32 :: 32 :: (List.replicate k 32 ++ regSz ++ sep ++ V)
          = (N ++ 32 :: 32 :: (List.replicate k 32 ++ regSz ++ sep)) ++ V := by
        simp only [List.append_assoc, List.cons_append]
      rw [e]
      apply noTrail_append _ V hV hV2
      intro b hb
      apply isReSpace_lt
      apply hsep'
      rcases List.eq_nil_or_concat sep with e' | ⟨s0, c, e'⟩
      · exact absurd e' hsep
      · rw [List.concat_eq_append] at e'
        rw [e'] at hb ⊢
        have : (N ++ 32 :: 32 :: (List.replicate k 32 ++ regSz ++ (s0 ++ [c]))).getLast?
            = some c := by
          have e2 : N ++ 32 :: 32 :: (List.replicate k 32 ++ regSz ++ (s0 ++ [c]))
              = (N ++ 32 :: 32 :: (List.replicate k 32 ++ regSz ++ s0)) ++ [c] := by
            simp only [List.append_assoc, List.cons_append]
          rw [e2, List.getLast?_append]
          rfl
        rw [this] at hb
        rw [← Option.some.inj hb]
        simp
    have := trimSpace_run lead _ trail hlead htrail (by simp) hX1 hX2
    rw [← this, hrep]
    simp only [List.append_assoc, List.cons_append]
  have hd : trimSpace (beforeDoubleSpace (N ++ 32 :: 32 ::
      (List.replicate k 32 ++ regSz ++ sep ++ V))) = N := by
    rw [beforeDoubleSpace_eq N _ hN hN3 (hN2 [32] (by decide))]
    unfold trimSpace
    rw [trimLeft_of_noLead N hN1, trimRight_of_noTrail N hN2]
  unfold parseLine
  simp only [hc, hf, ht, hx, hd, hV, Bool.not_true, Bool.false_eq_true, if_false]

/-- A line of the registry query whose columns are separated by tabs has no two
consecutive spaces, so `devPath` is the whole line, not the value name that
stands before `REG_SZ`. -/
theorem parseLine_tab_columns (U : UnicodeLower) :
    parseLine U (ascii "\\Device\\Serial0\tREG_SZ\tCOM3")
      = some { path := ascii "COM3",
               friendlyName := ascii "\\Device\\Serial0\tREG_SZ\tCOM3",
               devicePath := ascii "\\Device\\Serial0\tREG_SZ\tCOM3",
               source := srcRegistry } :=
  rfl

/-! ## Lower case and the virtual markers -/

/-- A stretch of ASCII bytes of `s` is found, in lower case, in `strings.ToLower(s)`. -/
theorem toLower_infix (U : UnicodeLower) (w s : GoString) (hw : ∀ b ∈ w, b < 128)
    (h : w <:+: s) : w.map lowerByte <:+: toLower U s := by
  obtain ⟨pre, post, rfl⟩ := h
  unfold toLower
  split
  · exact ⟨pre.map lowerByte, post.map lowerByte, by simp⟩
  · obtain ⟨pre', post', e⟩ := U.asciiStretch pre w post hw
    exact ⟨pre', post', e.symm⟩

theorem lowerByte_of_sameLetter (a b : Nat) (h : SameLetter a b)
    (hb : ¬ (65 ≤ b ∧ b ≤ 90)) (hb' : b < 128) : lowerByte a = b ∧ a < 128 := by
  unfold lowerByte
  rcases h with e | ⟨h1, h2, e⟩ | ⟨h1, h2, _⟩
  · subst e
    rw [if_neg hb]
    exact ⟨rfl, hb'⟩
  · have h3 : 65 ≤ a ∧ a ≤ 90 := ⟨h1, h2⟩
    rw [if_pos h3]
    omega
  · exact absurd ⟨h1, h2⟩ hb

/-- A spelling of a lower-case ASCII text in any mix of cases is ASCII and has
that text as its lower case. -/
theorem lower_of_eqUpToCase (w t : GoString) (h : EqUpToCase w t)
    (ht : ∀ b ∈ t, ¬ (65 ≤ b ∧ b ≤ 90) ∧ b < 128) :
    w.map lowerByte = t ∧ ∀ b ∈ w, b < 128 := by
  unfold EqUpToCase at h
  induction h with
  | nil => simp
  | cons hab _ ih =>
    rename_i a b l1 l2 _
    have h1 := lowerByte_of_sameLetter a b hab (ht b (List.mem_cons_self b l2)).1
      (ht b (List.mem_cons_self b l2)).2
    have h2 := ih (fun c hc => ht c (List.mem_cons_of_mem b hc))
    refine ⟨by simp [h1.1, h2.1], ?_⟩
    intro c hc
    rcases List.mem_cons.1 hc with rfl | hc
    · exact h1.2
    · exact h2.2 c hc

/-! ## The entries of the inventory, by where their key comes from -/

/-- The entry of the inventory for the key of a registry record that is the last
with its key: the record itself, or the record with the combined source when the
key is also a base key. -/
theorem listPorts_registry_entry (S : SliceSort) (base : List GoString) (reg : List Port)
    (order : List GoString) (h : RangeOrder base reg order) (l1 l2 : List Port) (r : Port)
    (hreg : reg = l1 ++ r :: l2) (hlast : ∀ y ∈ l2, normKey y.path ≠ normKey r.path) :
    ∃ p ∈ (listPorts S base reg order).1,
      (∀ q ∈ (listPorts S base reg order).1, normKey q.path = normKey r.path → q = p) ∧
      (normKey r.path ∈ base.map normKey → p = { r with source := srcBoth }) ∧
      (normKey r.path ∉ base.map normKey → p = r) := by
  have hr : mapGet (regMapOf reg) (normKey r.path) = some r := by
    rw [hreg]
    exact mapGet_foldl_last (fun r : Port => normKey r.path) (fun r => r) l1 l2 r [] hlast
  have hmem : normKey r.path ∈ order := by
    apply (rangeOrder_mem h _).2
    right
    rw [hreg]
    exact List.mem_map_of_mem (fun r : Port => normKey r.path) (by simp)
  have huniq : ∀ p, emitOne (baseMapOf base) (regMapOf reg) (normKey r.path) = some p →
      ∀ q ∈ (listPorts S base reg order).1, normKey q.path = normKey r.path → q = p := by
    intro p hk q hq hqk
    obtain ⟨k', _, hk'⟩ := (mem_listPorts S base reg order q).1 hq
    have := emitOne_key base reg k' q hk'
    rw [hqk] at this
    rw [← this, hk] at hk'
    exact (Option.some.inj hk').symm
  cases hb : mapGet (baseMapOf base) (normKey r.path) with
  | none =>
    have hk : emitOne (baseMapOf base) (regMapOf reg) (normKey r.path) = some r := by
      simp [emitOne, hb, hr]
    have hnb : normKey r.path ∉ base.map normKey := by
      rw [← mem_keys_baseMapOf]
      exact (mapGet_eq_none_iff _ _).1 hb
    exact ⟨r, (mem_listPorts S base reg order _).2 ⟨_, hmem, hk⟩, huniq r hk,
      fun hin => absurd hin hnb, fun _ => rfl⟩
  | some b =>
    have hk : emitOne (baseMapOf base) (regMapOf reg) (normKey r.path)
        = some { r with source := srcBoth } := by
      simp [emitOne, hb, hr]
    have hin : normKey r.path ∈ base.map normKey := by
      rw [← mem_keys_baseMapOf]
      exact (mapGet_isSome_iff _ _).1 ⟨b, hb⟩
    exact ⟨_, (mem_listPorts S base reg order _).2 ⟨_, hmem, hk⟩, huniq _ hk,
      fun _ => rfl, fun hnin => absurd hin hnin⟩

/-- The entry of the inventory for a key found among the base paths only: the
record of the last base path with that key. -/
theorem listPorts_base_entry (S : SliceSort) (base : List GoString) (reg : List Port)
    (order : List GoString) (h : RangeOrder base reg order) (l1 l2 : List GoString)
    (b : GoString) (hbase : base = l1 ++ b :: l2)
    (hlast : ∀ y ∈ l2, normKey y ≠ normKey b)
    (hreg : normKey b ∉ reg.map (fun r => normKey r.path)) :
    ({ path := b, source := srcSerial } : Port) ∈ (listPorts S base reg order).1 ∧
      ∀ q ∈ (listPorts S base reg order).1, normKey q.path = normKey b →
        q = { path := b, source := srcSerial } := by
  have hb : mapGet (baseMapOf base) (normKey b) = some { path := b, source := srcSerial } := by
    rw [hbase]
    exact mapGet_baseMapOf_last l1 l2 b hlast
  have hr : mapGet (regMapOf reg) (normKey b) = none := by
    rw [mapGet_eq_none_iff, mem_keys_regMapOf]
    exact hreg
  have hk : emitOne (baseMapOf base) (regMapOf reg) (normKey b)
      = some { path := b, source := srcSerial } := by
    simp [emitOne, hb, hr]
  have hmem : normKey b ∈ order := by
    apply (rangeOrder_mem h _).2
    left
    rw [hbase]
    exact List.mem_map_of_mem normKey (by simp)
  refine ⟨(mem_listPorts S base reg order _).2 ⟨_, hmem, hk⟩, ?_⟩
  intro q hq hqk
  obtain ⟨k', _, hk'⟩ := (mem_listPorts S base reg order q).1 hq
  have := emitOne_key base reg k' q hk'
  rw [hqk] at this
  rw [← this, hk] at hk'
  exact (Option.some.inj hk').symm

/-- Every entry of the inventory, by the lists its key is found in. -/
theorem listPorts_entry_cases (S : SliceSort) (base : List GoString) (reg : List Port)
    (order : List GoString) (p : Port) (hp : p ∈ (listPorts S base reg order).1) :
    (normKey p.path ∈ base.map normKey ∧
        normKey p.path ∈ reg.map (fun r => normKey r.path) ∧
        ∃ r ∈ reg, p = { r with source := srcBoth }) ∨
      (normKey p.path ∉ base.map normKey ∧
        normKey p.path ∈ reg.map (fun r => normKey r.path) ∧ p ∈ reg) ∨
      (normKey p.path ∈ base.map normKey ∧
        normKey p.path ∉ reg.map (fun r => normKey r.path) ∧
        p = { path := p.path, source := srcSerial } ∧ p.path ∈ base) := by
  obtain ⟨k, _, hk⟩ := (mem_listPorts S base reg order p).1 hp
  have hkey := emitOne_key base reg k p hk
  rw [hkey, ← mem_keys_baseMapOf, ← mem_keys_regMapOf]
  unfold emitOne at hk
  cases hb : mapGet (baseMapOf base) k with
  | none =>
    have hnb := (mapGet_eq_none_iff _ _).1 hb
    cases hr : mapGet (regMapOf reg) k with
    | none => simp [hb, hr] at hk
    | some r =>
      simp [hb, hr] at hk
      subst hk
      exact Or.inr (Or.inl ⟨hnb, (mapGet_isSome_iff _ _).1 ⟨r, hr⟩,
        (mapGet_regMapOf reg k r hr).1⟩)
  | some b =>
    have hib := (mapGet_isSome_iff _ _).1 ⟨b, hb⟩
    cases hr : mapGet (regMapOf reg) k with
    | none =>
      have hnr := (mapGet_eq_none_iff _ _).1 hr
      simp [hb, hr] at hk
      subst hk
      have := mapGet_baseMapOf base k b hb
      exact Or.inr (Or.inr ⟨hib, hnr, this.2.2, this.1⟩)
    | some r =>
      simp [hb, hr] at hk
      subst hk
      exact Or.inl ⟨hib, (mapGet_isSome_iff _ _).1 ⟨r, hr⟩, r,
        (mapGet_regMapOf reg k r hr).1, rfl⟩

theorem upperByte_idem (b : Nat) : upperByte (upperByte b) = upperByte b := by
  by_cases h : 97 ≤ b ∧ b ≤ 122
  · have e : upperByte b = b - 32 := by simp [upperByte, h]
    have h' : ¬ (97 ≤ b - 32 ∧ b - 32 ≤ 122) := by omega
    rw [e]
    unfold upperByte
    rw [if_neg h']
  · have e : upperByte b = b := by simp [upperByte, h]
    rw [e, e]

theorem normKey_idem (s : GoString) : normKey (normKey s) = normKey s := by
  simp [normKey, stringsToUpperASCII, upperByte_idem]

theorem sortPorts_nil (S : SliceSort) : sortPorts S [] = [] :=
  List.Perm.eq_nil (sortPorts_perm S [])

theorem sortPorts_singleton (S : SliceSort) (r : Port) : sortPorts S [r] = [r] :=
  List.perm_singleton.1 (sortPorts_perm S [r])

/-! ## Claims -/

/-- C1: for every base list and registry list, the inventory of `listPorts` has
exactly one entry per normalized key of the union: the keys of the output
paths are pairwise distinct, and a key occurs among them exactly when it is
the key of a base path or of a registry path. -/
theorem listPorts_one_entry_per_key (S : SliceSort) (base : List GoString)
    (reg : List Port) (order : List GoString) (h : RangeOrder base reg order) :
    ((listPorts S base reg order).1.map (fun p => normKey p.path)).Nodup ∧
      ∀ k, k ∈ (listPorts S base reg order).1.map (fun p => normKey p.path) ↔
        (k ∈ base.map normKey ∨ k ∈ reg.map (fun r => normKey r.path)) := by
  have hp := listPorts_keys_perm S base reg order h
  refine ⟨hp.nodup_iff.2 (rangeOrder_nodup h), fun k => ?_⟩
  rw [hp.mem_iff, rangeOrder_mem h]

/-- C1 at the sample lists: four keys, one entry each. -/
theorem listPorts_one_entry_per_key_witness :
    RangeOrder sampleBase sampleReg (someOrder sampleBase sampleReg) ∧
      (listPorts insertionSlice sampleBase sampleReg
          (someOrder sampleBase sampleReg)).1.map (fun p => normKey p.path)
        = [ascii "TTYS1", ascii "COM3", ascii "COM7", ascii "COM12"] ∧
      (((listPorts insertionSlice sampleBase sampleReg
          (someOrder sampleBase sampleReg)).1.map (fun p => normKey p.path)).Nodup ∧
        ∀ k, k ∈ (listPorts insertionSlice sampleBase sampleReg
            (someOrder sampleBase sampleReg)).1.map (fun p => normKey p.path) ↔
          (k ∈ sampleBase.map normKey ∨ k ∈ sampleReg.map (fun r => normKey r.path))) :=
  ⟨rangeOrder_someOrder _ _, by decide,
    listPorts_one_entry_per_key insertionSlice sampleBase sampleReg _
      (rangeOrder_someOrder _ _)⟩

/-- C2: for every normalized key `k` present in both lists, the registry list
has a last record `r` with that key (the one `regMap` keeps), and the inventory
holds exactly one entry with key `k`: it is `r` with only the source rewritten
to `"SERIALCOMM+serial"`; path, friendlyName, devicePath, isVirtual and the
other metadata are those of `r`. -/
theorem listPorts_both_sources (S : SliceSort) (base : List GoString) (reg : List Port)
    (order : List GoString) (h : RangeOrder base reg order) (k : GoString)
    (hbase : k ∈ base.map normKey) (hreg : k ∈ reg.map (fun r => normKey r.path)) :
    ∃ l1 r l2, reg = l1 ++ r :: l2 ∧ normKey r.path = k ∧
      (∀ y ∈ l2, normKey y.path ≠ k) ∧
      ∃ p ∈ (listPorts S base reg order).1,
        (∀ q ∈ (listPorts S base reg order).1, normKey q.path = k → q = p) ∧
        p.source = srcBoth ∧ p.path = r.path ∧ p.friendlyName = r.friendlyName ∧
        p.devicePath = r.devicePath ∧ p.isVirtual = r.isVirtual ∧
        p.manufacturer = r.manufacturer ∧ p.pnpId = r.pnpId ∧
        p.deviceLocation = r.deviceLocation ∧ p.productId = r.productId := by
  obtain ⟨l1, r, l2, e, hrk, hlast⟩ :=
    exists_last_with_key (fun r : Port => normKey r.path) reg k hreg
  have hrk' : normKey r.path = k := hrk
  refine ⟨l1, r, l2, e, hrk', hlast, ?_⟩
  have hr : mapGet (regMapOf reg) k = some r := by
    rw [e, ← hrk']
    apply mapGet_foldl_last (fun r : Port => normKey r.path) (fun r => r) l1 l2 r []
    intro y hy
    exact hrk ▸ hlast y hy
  obtain ⟨b, hb⟩ := (mapGet_isSome_iff (baseMapOf base) k).2
    ((mem_keys_baseMapOf base _).2 hbase)
  have hk : emitOne (baseMapOf base) (regMapOf reg) k
      = some { r with source := srcBoth } := by
    simp [emitOne, hb, hr]
  have hmem : k ∈ order := (rangeOrder_mem h _).2 (Or.inl hbase)
  refine ⟨{ r with source := srcBoth }, (mem_listPorts S base reg order _).2
    ⟨_, hmem, hk⟩, ?_, rfl, rfl, rfl, rfl, rfl, rfl, rfl, rfl, rfl⟩
  intro q hq hqk
  obtain ⟨k', _, hk'⟩ := (mem_listPorts S base reg order q).1 hq
  have := emitOne_key base reg k' q hk'
  rw [hqk] at this
  rw [← this, hk] at hk'
  exact (Option.some.inj hk').symm

/-- C2 at the scenario of the specification: base `["COM3"]` and the registry
record of the Arduino give, for every library sort and visiting order, one
entry, with the combined source, the friendly name of the registry record and
`isVirtual = false`. -/
theorem listPorts_both_sources_witness :
    (RangeOrder [ascii "COM3"] [arduino] (someOrder [ascii "COM3"] [arduino]) ∧
      ascii "COM3" ∈ [ascii "COM3"].map normKey ∧
      ascii "COM3" ∈ [arduino].map (fun r => normKey r.path)) ∧
      (∀ (S : SliceSort) (order : List GoString),
        RangeOrder [ascii "COM3"] [arduino] order →
          (listPorts S [ascii "COM3"] [arduino] order).1
            = [{ path := ascii "COM3", friendlyName := ascii "Arduino Uno",
                 devicePath := ascii "Arduino Uno", source := ascii "SERIALCOMM+serial",
                 isVirtual := false }]) ∧
      ∃ l1 r l2, [arduino] = l1 ++ r :: l2 ∧ normKey r.path = ascii "COM3" ∧
        (∀ y ∈ l2, normKey y.path ≠ ascii "COM3") ∧
        ∃ p ∈ (listPorts insertionSlice [ascii "COM3"] [arduino]
            (someOrder [ascii "COM3"] [arduino])).1,
          (∀ q ∈ (listPorts insertionSlice [ascii "COM3"] [arduino]
              (someOrder [ascii "COM3"] [arduino])).1,
            normKey q.path = ascii "COM3" → q = p) ∧
          p.source = srcBoth ∧ p.path = r.path ∧ p.friendlyName = r.friendlyName ∧
          p.devicePath = r.devicePath ∧ p.isVirtual = r.isVirtual ∧
          p.manufacturer = r.manufacturer ∧ p.pnpId = r.pnpId ∧
          p.deviceLocation = r.deviceLocation ∧ p.productId = r.productId :=
  ⟨⟨rangeOrder_someOrder _ _, by decide, by decide⟩,
    fun S order h =>
      (listPorts_unique S insertionSlice _ _ order _ h (rangeOrder_someOrder _ _)).trans
        (by decide),
    listPorts_both_sources insertionSlice [ascii "COM3"] [arduino] _
      (rangeOrder_someOrder _ _) (ascii "COM3") (by decide) (by decide)⟩

/-- C3: when every registry record carries the source `"SERIALCOMM"`, an entry
of the inventory has source `"SERIALCOMM+serial"` if and only if the key of
its path is the key of a base path and the key of a registry path. -/
theorem listPorts_source_both_iff (S : SliceSort) (base : List GoString) (reg : List Port)
    (order : List GoString) (h : RangeOrder base reg order)
    (hsrc : ∀ r ∈ reg, r.source = srcRegistry) :
    ∀ p ∈ (listPorts S base reg order).1,
      p.source = srcBoth ↔
        (normKey p.path ∈ base.map normKey ∧
          normKey p.path ∈ reg.map (fun r => normKey r.path)) := by
  intro p hp
  obtain ⟨k, hko, hk⟩ := (mem_listPorts S base reg order p).1 hp
  have hko' := (rangeOrder_mem h k).1 hko
  have hkey := emitOne_key base reg k p hk
  rw [hkey, ← mem_keys_baseMapOf, ← mem_keys_regMapOf]
  unfold emitOne at hk
  cases hb : mapGet (baseMapOf base) k with
  | none =>
    have hnb := (mapGet_eq_none_iff _ _).1 hb
    cases hr : mapGet (regMapOf reg) k with
    | none => simp [hb, hr] at hk
    | some r =>
      simp [hb, hr] at hk
      subst hk
      have := hsrc r (mapGet_regMapOf reg k r hr).1
      constructor
      · intro e
        rw [this] at e
        exact absurd e (by decide)
      · intro e
        exact absurd e.1 hnb
  | some b =>
    cases hr : mapGet (regMapOf reg) k with
    | none =>
      have hnr := (mapGet_eq_none_iff _ _).1 hr
      simp [hb, hr] at hk
      subst hk
      have hs : b.source = srcSerial := by rw [(mapGet_baseMapOf base k b hb).2.2]
      constructor
      · intro e
        rw [hs] at e
        exact absurd e (by decide)
      · intro e
        exact absurd e.2 hnr
    | some r =>
      simp [hb, hr] at hk
      subst hk
      constructor
      · intro _
        exact ⟨(mapGet_isSome_iff _ _).1 ⟨b, hb⟩, (mapGet_isSome_iff _ _).1 ⟨r, hr⟩⟩
      · intro _
        rfl

/-- C3 at the sample lists: `COM3` and `COM7` are in both lists and carry the
combined source, `ttyS1` and `COM12` do not. -/
theorem listPorts_source_both_iff_witness :
    (RangeOrder sampleBase sampleReg (someOrder sampleBase sampleReg) ∧
      ∀ r ∈ sampleReg, r.source = srcRegistry) ∧
      (listPorts insertionSlice sampleBase sampleReg
          (someOrder sampleBase sampleReg)).1.map (fun p => (p.path, p.source))
        = [(ascii "TTYS1", ascii "serial"), (ascii "COM3", ascii "SERIALCOMM+serial"),
           (ascii "COM7", ascii "SERIALCOMM+serial"), (ascii "COM12", ascii "SERIALCOMM")] ∧
      ∀ p ∈ (listPorts insertionSlice sampleBase sampleReg
          (someOrder sampleBase sampleReg)).1,
        p.source = srcBoth ↔
          (normKey p.path ∈ sampleBase.map normKey ∧
            normKey p.path ∈ sampleReg.map (fun r => normKey r.path)) :=
  ⟨⟨rangeOrder_someOrder _ _, by decide⟩, by decide,
    listPorts_source_both_iff insertionSlice sampleBase sampleReg _
      (rangeOrder_someOrder _ _) (by decide)⟩

theorem upperByte_sameLetter (a b : Nat) (h : SameLetter a b) :
    upperByte a = upperByte b := by
  unfold upperByte
  rcases h with e | ⟨h1, h2, e⟩ | ⟨h1, h2, e⟩
  · rw [e]
  · have h3 : ¬ (97 ≤ a ∧ a ≤ 122) := by omega
    have h4 : 97 ≤ b ∧ b ≤ 122 := by omega
    rw [if_neg h3, if_pos h4]
    omega
  · have h3 : ¬ (97 ≤ b ∧ b ≤ 122) := by omega
    have h4 : 97 ≤ a ∧ a ≤ 122 := by omega
    rw [if_neg h3, if_pos h4]
    omega

/-- C4: two path strings of the same length that hold, at every position,
the same byte or the two ASCII cases of the same letter have the same
`normKey`. -/
theorem normKey_eq_of_eqUpToCase (s t : GoString) (h : EqUpToCase s t) :
    normKey s = normKey t := by
  unfold EqUpToCase at h
  unfold normKey stringsToUpperASCII
  induction h with
  | nil => rfl
  | cons hab _ ih =>
    simp only [List.map_cons, ih, upperByte_sameLetter _ _ hab]

/-- C4 at `"com3"` and `"Com3"`. -/
theorem normKey_eq_of_eqUpToCase_witness :
    EqUpToCase (ascii "com3") (ascii "Com3") ∧
      normKey (ascii "com3") = normKey (ascii "Com3") ∧
      normKey (ascii "com3") = ascii "COM3" :=
  ⟨by simp [EqUpToCase, SameLetter, ascii],
    normKey_eq_of_eqUpToCase (ascii "com3") (ascii "Com3")
      (by simp [EqUpToCase, SameLetter, ascii]), by decide⟩

/-- C5, as stated, fails: the ports with indices 99999999999999999999 and
100000000000000000000 are returned with the larger index first, so the adjacent
pair is ordered neither by the value of the first run of digits nor, the values
being different, by the tie-break. -/
theorem sortPorts_value_order_counterexample :
    (∀ S : SliceSort, sortPorts S [port99, port100] = [port100, port99]) ∧
      firstRunValue port100.path = 100000000000000000000 ∧
      firstRunValue port99.path = 99999999999999999999 ∧
      ¬ (firstRunValue port100.path < firstRunValue port99.path ∨
          (firstRunValue port100.path = firstRunValue port99.path ∧
            (port100.path = port99.path ∨ strLt port100.path port99.path = true))) :=
  ⟨fun S => sortPorts_eq_of_sorted S _ _ (by decide) (by decide) (by decide),
    by decide, by decide, by decide⟩

/-- C5, amended: for every list of ports `sortPorts` yields a permutation of the
input in which every adjacent pair `(a, b)` has `extractNum a.path <
extractNum b.path`, or equal numbers and `a.path ≤ b.path` byte-wise; where
`extractNum` is the value of the first run of decimal digits of the path capped
at the largest `int`, and 0 when the path has no digit. -/
theorem sortPorts_perm_and_ordered (S : SliceSort) (l : List Port) :
    (sortPorts S l).Perm l ∧
      (sortPorts S l).Chain' (fun a b =>
        extractNum a.path < extractNum b.path ∨
          (extractNum a.path = extractNum b.path ∧
            (a.path = b.path ∨ strLt a.path b.path = true))) ∧
      (∀ s run, FirstRun s run → extractNum s = min (digitsValue run : Int) maxInt) ∧
      (∀ s, (∀ b ∈ s, isDigit b = false) → extractNum s = 0) := by
  refine ⟨sortPorts_perm S l, ?_, ?_, extractNum_of_no_digit⟩
  · apply List.Pairwise.chain'
    exact (sortPorts_sorted S l).imp (fun {a b} h => (portLess_eq_false_iff a b).1 h)
  · intro s run h
    rw [extractNum_eq_min, firstRunValue_of_firstRun s run h]

/-- C6: the comparison of `sortPorts` is a strict total order on path strings: it
looks at the paths only, it is irreflexive and transitive, and of two ports with
distinct paths exactly one is before the other. -/
theorem portLess_strict_total_order :
    (∀ a b : Port, a.path = b.path → portLess a b = false) ∧
      (∀ a b c : Port, portLess a b = true → portLess b c = true → portLess a c = true) ∧
      (∀ a b : Port, a.path ≠ b.path →
        (portLess a b = true ∧ portLess b a = false) ∨
          (portLess a b = false ∧ portLess b a = true)) := by
  refine ⟨?_, portLess_trans, ?_⟩
  · intro a b e
    rw [portLess_congr a b b b e rfl]
    exact portLess_irrefl b
  · intro a b hne
    rcases portLess_total a b hne with h | h
    · exact Or.inl ⟨h, portLess_asymm a b h⟩
    · exact Or.inr ⟨portLess_asymm b a h, h⟩

/-- C7, as stated, fails: the first run of digits of `tty9223372036854775808`
denotes two to the 63rd, `extractNum` returns one less; and of the two ports with
indices two to the 63rd and two to the 64th, `sortPorts` places the larger
first. -/
theorem extractNum_value_counterexample :
    firstRunValue portP63.path = 9223372036854775808 ∧
      extractNum portP63.path = 9223372036854775807 ∧
      firstRunValue portP63.path < firstRunValue portP64.path ∧
      ∀ S : SliceSort, sortPorts S [portP63, portP64] = [portP64, portP63] :=
  ⟨by decide, by decide, by decide,
    fun S => sortPorts_eq_of_sorted S _ _ (by decide) (by decide) (by decide)⟩

/-- C7, amended: of two ports of a list whose first runs of digits denote different
integers, the smaller of them below the largest `int`, `sortPorts` places the one
with the smaller integer before the other, whatever the length of the runs; and
for every string `extractNum` is the value of its first maximal run of ASCII
digits capped at the largest `int`, and is never negative. -/
theorem sortPorts_numeric_order (S : SliceSort) (l : List Port) (a b : Port)
    (ha : a ∈ l) (hb : b ∈ l) (hlt : firstRunValue a.path < firstRunValue b.path)
    (hfit : (firstRunValue a.path : Int) < maxInt) :
    (List.Sublist [a, b] (sortPorts S l) ∧ ¬ List.Sublist [b, a] (sortPorts S l)) ∧
      (∀ s run, FirstRun s run → extractNum s = min (digitsValue run : Int) maxInt) ∧
      (∀ s run, FirstRun s run → firstRunValue s = digitsValue run) ∧
      (∀ s, 0 ≤ extractNum s) := by
  refine ⟨?_, ?_, firstRunValue_of_firstRun, extractNum_nonneg⟩
  · apply sublist_pair_of_sorted _ a b (sortPorts_sorted S l)
      ((sortPorts_perm S l).mem_iff.2 ha) ((sortPorts_perm S l).mem_iff.2 hb)
    rw [portLess_iff, extractNum_eq_min, extractNum_eq_min]
    left
    have : (firstRunValue a.path : Int) < (firstRunValue b.path : Int) := by
      exact_mod_cast hlt
    omega
  · intro s run h
    rw [extractNum_eq_min, firstRunValue_of_firstRun s run h]

/-- C7 at `COM10` and `COM2`: index 2 sorts before index 10. -/
theorem sortPorts_numeric_order_witness :
    (({ path := ascii "COM2" } : Port) ∈ [({ path := ascii "COM10" } : Port),
        { path := ascii "COM2" }] ∧
      ({ path := ascii "COM10" } : Port) ∈ [({ path := ascii "COM10" } : Port),
        { path := ascii "COM2" }] ∧
      firstRunValue (ascii "COM2") < firstRunValue (ascii "COM10") ∧
      (firstRunValue (ascii "COM2") : Int) < maxInt) ∧
      sortPorts insertionSlice [{ path := ascii "COM10" }, { path := ascii "COM2" }]
        = [{ path := ascii "COM2" }, { path := ascii "COM10" }] ∧
      ((List.Sublist [({ path := ascii "COM2" } : Port), { path := ascii "COM10" }]
          (sortPorts insertionSlice [{ path := ascii "COM10" }, { path := ascii "COM2" }]) ∧
        ¬ List.Sublist [({ path := ascii "COM10" } : Port), { path := ascii "COM2" }]
          (sortPorts insertionSlice [{ path := ascii "COM10" }, { path := ascii "COM2" }])) ∧
        (∀ s run, FirstRun s run → extractNum s = min (digitsValue run : Int) maxInt) ∧
        (∀ s run, FirstRun s run → firstRunValue s = digitsValue run) ∧
        (∀ s, 0 ≤ extractNum s)) :=
  ⟨⟨by decide, by decide, by decide, by decide⟩, by decide,
    sortPorts_numeric_order insertionSlice
      [{ path := ascii "COM10" }, { path := ascii "COM2" }]
      { path := ascii "COM2" } { path := ascii "COM10" }
      (by decide) (by decide) (by decide) (by decide)⟩

/-- C8: the inventory does not depend on the order in which the emit loop
visits the keys (nor on the library sort): any two visiting orders give the same
inventory, `sortPorts` sends every arrangement of the emitted records to that
inventory, and the inventory is strictly increasing in the order on paths. -/
theorem listPorts_order_independent (S1 S2 : SliceSort) (base : List GoString)
    (reg : List Port) (order1 order2 : List GoString)
    (h1 : RangeOrder base reg order1) (h2 : RangeOrder base reg order2) :
    listPorts S1 base reg order1 = listPorts S2 base reg order2 ∧
      (∀ l : List Port, l.Perm (emitAll (baseMapOf base) (regMapOf reg) order1) →
        sortPorts S2 l = (listPorts S1 base reg order1).1) ∧
      (listPorts S1 base reg order1).1.Pairwise (fun a b => portLess a b = true) := by
  refine ⟨?_, ?_, listPorts_strictly_ordered S1 base reg order1 h1⟩
  · exact Prod.ext (listPorts_unique S1 S2 base reg order1 order2 h1 h2) rfl
  · intro l hl
    apply sortPorts_eq_of_sorted S2 l _ (hl.trans (sortPorts_perm S1 _).symm)
      (sortPorts_sorted S1 _)
    exact listPorts_paths_distinct S1 base reg order1 h1

/-- C8 at the sample lists, the keys visited in one order and in the reverse order. -/
theorem listPorts_order_independent_witness :
    (RangeOrder sampleBase sampleReg (someOrder sampleBase sampleReg) ∧
      RangeOrder sampleBase sampleReg (someOrder sampleBase sampleReg).reverse) ∧
      ((listPorts insertionSlice sampleBase sampleReg
            (someOrder sampleBase sampleReg)).1.map (fun p => p.path)
          = [ascii "TTYS1", ascii "COM3", ascii "COM7", ascii "COM12"] ∧
        (listPorts reversingSlice sampleBase sampleReg
            (someOrder sampleBase sampleReg).reverse).1.map (fun p => p.path)
          = [ascii "TTYS1", ascii "COM3", ascii "COM7", ascii "COM12"]) ∧
      (listPorts insertionSlice sampleBase sampleReg (someOrder sampleBase sampleReg)
          = listPorts reversingSlice sampleBase sampleReg
              (someOrder sampleBase sampleReg).reverse ∧
        (∀ l : List Port,
          l.Perm (emitAll (baseMapOf sampleBase) (regMapOf sampleReg)
              (someOrder sampleBase sampleReg)) →
            sortPorts reversingSlice l
              = (listPorts insertionSlice sampleBase sampleReg
                  (someOrder sampleBase sampleReg)).1) ∧
        (listPorts insertionSlice sampleBase sampleReg
            (someOrder sampleBase sampleReg)).1.Pairwise
          (fun a b => portLess a b = true)) :=
  ⟨⟨rangeOrder_someOrder _ _, List.reverse_perm _⟩, ⟨by decide, by decide⟩,
    listPorts_order_independent insertionSlice reversingSlice sampleBase sampleReg _ _
      (rangeOrder_someOrder _ _) (List.reverse_perm _)⟩

/-- For every library sort: on a list in which the ports that share a path are
the same record, `sortPorts` applied to the result of `sortPorts` returns that
same list. -/
theorem sortPorts_twice_of_equal_ties (S S' : SliceSort) (l : List Port)
    (hpath : ∀ a ∈ l, ∀ b ∈ l, a.path = b.path → a = b) :
    sortPorts S' (sortPorts S l) = sortPorts S l := by
  apply sortPorts_eq_of_sorted S' _ _ (List.Perm.refl _) (sortPorts_sorted S l)
  intro a ha b hb
  exact hpath a ((sortPorts_perm S l).mem_iff.1 ha) b ((sortPorts_perm S l).mem_iff.1 hb)

/-- C9: `sortPorts` is idempotent: for every list of ports, lists in which
several ports share a path and differ in other fields included, applying
`sortPorts` to the result of `sortPorts` returns that same list unchanged. -/
theorem sortPorts_go_idempotent (S : SliceSort) (l : List Port) :
    sortPorts (goSlice S) (sortPorts (goSlice S) l) = sortPorts (goSlice S) l :=
  goSortRun_of_ordered S portLess _ (sortPorts_sorted (goSlice S) l)

/-- C9 at a list with two records of `COM3`, which stay in the order they came
in, and at a list of fourteen with thirteen records of `COM2`, which a library
sort may hand back in another order: sorting the result again changes
nothing. -/
theorem sortPorts_go_idempotent_witness :
    arduino.path = arduinoMega.path ∧ arduino ≠ arduinoMega ∧
      sortPorts (goSlice reversingSlice) [serial7, arduinoMega, arduino]
        = [arduinoMega, arduino, serial7] ∧
      sortPorts (goSlice reversingSlice)
          (sortPorts (goSlice reversingSlice) [serial7, arduinoMega, arduino])
        = sortPorts (goSlice reversingSlice) [serial7, arduinoMega, arduino] ∧
      (serial7 :: thirteen).length = 14 ∧
      sortPorts (goSlice reversingSlice) (serial7 :: thirteen)
        = thirteen.reverse ++ [serial7] ∧
      sortPorts (goSlice reversingSlice)
          (sortPorts (goSlice reversingSlice) (serial7 :: thirteen))
        = sortPorts (goSlice reversingSlice) (serial7 :: thirteen) :=
  ⟨by decide, by decide, by decide,
    sortPorts_go_idempotent reversingSlice [serial7, arduinoMega, arduino],
    by decide, by decide, sortPorts_go_idempotent reversingSlice (serial7 :: thirteen)⟩

/-- C10: with an empty registry list, every entry of the inventory is a base
path with source `"serial"`, `isVirtual = false` and every other field empty;
there is one entry per normalized key of the base list, the last spelling of
the key; and the entries are in the order of the sorter. -/
theorem listPorts_base_only (S : SliceSort) (base : List GoString)
    (order : List GoString) (h : RangeOrder base [] order) :
    (∀ p ∈ (listPorts S base [] order).1,
        p.path ∈ base ∧ p.source = srcSerial ∧ p.isVirtual = false ∧
        p.friendlyName = [] ∧ p.devicePath = [] ∧ p.manufacturer = [] ∧
        p.pnpId = [] ∧ p.deviceLocation = [] ∧ p.productId = []) ∧
      ((listPorts S base [] order).1.map (fun p => normKey p.path)).Nodup ∧
      (∀ b ∈ base, normKey b ∈ (listPorts S base [] order).1.map (fun p => normKey p.path)) ∧
      (∀ l1 b l2, base = l1 ++ b :: l2 → (∀ y ∈ l2, normKey y ≠ normKey b) →
        ({ path := b, source := srcSerial } : Port) ∈ (listPorts S base [] order).1) ∧
      (listPorts S base [] order).1.Pairwise (fun a b => portLess a b = true) := by
  have hget : ∀ k p, emitOne (baseMapOf base) (regMapOf []) k = some p →
      mapGet (baseMapOf base) k = some p := by
    intro k p hk
    unfold emitOne at hk
    rw [regMapOf_nil] at hk
    cases hb : mapGet (baseMapOf base) k with
    | none => simp [hb, mapGet] at hk
    | some b => simpa [hb, mapGet] using hk
  have hp := listPorts_keys_perm S base [] order h
  refine ⟨?_, hp.nodup_iff.2 (rangeOrder_nodup h), ?_, ?_,
    listPorts_strictly_ordered S base [] order h⟩
  · intro p hpm
    obtain ⟨k, _, hk⟩ := (mem_listPorts S base [] order p).1 hpm
    obtain ⟨h1, _, h3⟩ := mapGet_baseMapOf base k p (hget k p hk)
    refine ⟨h1, ?_, ?_, ?_, ?_, ?_, ?_, ?_, ?_⟩ <;> rw [h3]
  · intro b hb
    rw [hp.mem_iff, rangeOrder_mem h]
    exact Or.inl (List.mem_map_of_mem normKey hb)
  · intro l1 b l2 hbase hlast
    apply (mem_listPorts S base [] order _).2
    refine ⟨normKey b, (rangeOrder_mem h _).2 (Or.inl ?_), ?_⟩
    · rw [hbase]
      exact List.mem_map_of_mem normKey (by simp)
    · unfold emitOne
      rw [hbase, mapGet_baseMapOf_last l1 l2 b hlast, regMapOf_nil]
      simp [mapGet]

/-- C10 at the scenario of the specification: base `["COM3","COM10","COM1"]` and
an empty registry list give `COM1`, `COM3`, `COM10` in that order, each with
source `"serial"` and `isVirtual = false`, for every library sort and every
visiting order. -/
theorem listPorts_base_only_witness :
    RangeOrder [ascii "COM3", ascii "COM10", ascii "COM1"] []
        (someOrder [ascii "COM3", ascii "COM10", ascii "COM1"] []) ∧
      (∀ (S : SliceSort) (order : List GoString),
        RangeOrder [ascii "COM3", ascii "COM10", ascii "COM1"] [] order →
          (listPorts S [ascii "COM3", ascii "COM10", ascii "COM1"] [] order).1
            = [{ path := ascii "COM1", source := ascii "serial", isVirtual := false },
               { path := ascii "COM3", source := ascii "serial", isVirtual := false },
               { path := ascii "COM10", source := ascii "serial", isVirtual := false }]) ∧
      (listPorts insertionSlice [ascii "COM3", ascii "COM10", ascii "COM1"] []
          (someOrder [ascii "COM3", ascii "COM10", ascii "COM1"] [])).1.Pairwise
        (fun a b => portLess a b = true) :=
  ⟨rangeOrder_someOrder _ _,
    fun S order h =>
      (listPorts_unique S insertionSlice _ _ order _ h (rangeOrder_someOrder _ _)).trans
        (by decide),
    (listPorts_base_only insertionSlice [ascii "COM3", ascii "COM10", ascii "COM1"] _
      (rangeOrder_someOrder _ _)).2.2.2.2⟩

/-! ## Claims on the registry adapter and on the merger, continued -/

/-- C11, as stated, fails: the line with value name `\Device\com0` and value
`COM3` gives a record that is not virtual, although the lower-cased
concatenation of its devicePath and its path, `\device\com0com3`, contains
`com0com`; the code puts a space between the two. -/
theorem isVirtual_plain_concat_counterexample :
    (∀ U : UnicodeLower, parseLine U lineCom0 = some recCom0) ∧
      recCom0.isVirtual = false ∧
      (∀ U : UnicodeLower,
        toLower U (recCom0.devicePath ++ recCom0.path) = ascii "\\device\\com0com3") ∧
      ascii "com0com" <:+: ascii "\\device\\com0com3" :=
  ⟨fun _ => rfl, rfl, fun _ => rfl, by decide⟩

/-- C11, amended: for every record the line parser produces, `isVirtual` is true
if and only if the lower case (`strings.ToLower`) of its devicePath, a space,
and its path contains one of `com0com`, `virtual`, `null-modem`, `emulator`,
`loopback`. -/
theorem parseLine_isVirtual_iff (U : UnicodeLower) (ln : GoString) (r : Port)
    (h : parseLine U ln = some r) :
    r.isVirtual = true ↔
      ∃ m ∈ [ascii "com0com", ascii "virtual", ascii "null-modem", ascii "emulator",
          ascii "loopback"],
        m <:+: toLower U (r.devicePath ++ ascii " " ++ r.path) := by
  obtain ⟨_, g, _, _, hr⟩ := parseLine_eq_some U ln r h
  subst hr
  simp only [List.any_eq_true, contains_iff]
  rfl

/-- C11 at a line of a com0com port: the record is virtual and the lower case of
`\Device\COM0COM11 CNCA0` contains `com0com`. -/
theorem parseLine_isVirtual_iff_witness :
    parseLine byteLower lineCnc = some recCnc ∧ recCnc.isVirtual = true ∧
      (recCnc.isVirtual = true ↔
        ∃ m ∈ [ascii "com0com", ascii "virtual", ascii "null-modem", ascii "emulator",
            ascii "loopback"],
          m <:+: toLower byteLower (recCnc.devicePath ++ ascii " " ++ recCnc.path)) :=
  ⟨by decide, rfl, parseLine_isVirtual_iff byteLower lineCnc recCnc (by decide)⟩

/-- C12, as stated, fails when two parsed records share a normalized key: of
the two lines of `twoNames` the first gives a virtual record for `COM5`, the
second a record for `com5` that is not virtual; the adapter returns them in this
order, the merger keeps the last, and the only entry of the inventory for that
port has `isVirtual = false`. -/
theorem com0com_entry_counterexample :
    (∀ U : UnicodeLower, parseLine U (ascii "    \\Device\\com0com10    REG_SZ    COM5")
        = some virtual5) ∧
      ascii "com0com" <:+: virtual5.devicePath ∧ virtual5.isVirtual = true ∧
      (∀ (S : SliceSort) (U : UnicodeLower),
        listFromWindowsRegistry S U twoNames false = [virtual5, plain5]) ∧
      normKey plain5.path = normKey virtual5.path ∧ plain5.isVirtual = false ∧
      (∀ (S : SliceSort) (order : List GoString),
        RangeOrder [] [virtual5, plain5] order →
          (listPorts S [] [virtual5, plain5] order).1 = [plain5]) :=
  ⟨fun _ => rfl, by decide, rfl,
    fun S _ => sortPorts_eq_of_sorted S _ _ (List.Perm.refl _) (by decide) (by decide),
    by decide, rfl,
    fun S order h =>
      (listPorts_unique S insertionSlice _ _ order _ h (rangeOrder_someOrder _ _)).trans
        (by decide)⟩

/-- C12, amended: a record parsed from a registry line whose devicePath contains
`com0com` in any mix of upper and lower case ASCII letters has `isVirtual =
true`; and when it is the last record of the adapter's list with its normalized
key (so when no other record has that key), the one entry of the merged
inventory for that port has its path and `isVirtual = true`. -/
theorem com0com_isVirtual (U : UnicodeLower) (ln : GoString) (r : Port)
    (h : parseLine U ln = some r) (w : GoString) (hw : EqUpToCase w (ascii "com0com"))
    (hin : w <:+: r.devicePath) :
    r.isVirtual = true ∧
      ∀ (S S' : SliceSort) (out : GoString) (failed : Bool) (base order : List GoString)
        (l1 l2 : List Port),
        listFromWindowsRegistry S U out failed = l1 ++ r :: l2 →
        (∀ y ∈ l2, normKey y.path ≠ normKey r.path) →
        RangeOrder base (listFromWindowsRegistry S U out failed) order →
        ∃ p ∈ (listPorts S' base (listFromWindowsRegistry S U out failed) order).1,
          (∀ q ∈ (listPorts S' base (listFromWindowsRegistry S U out failed) order).1,
            normKey q.path = normKey r.path → q = p) ∧
          p.path = r.path ∧ p.isVirtual = true := by
  have hv : r.isVirtual = true := by
    obtain ⟨_, g, _, _, hr⟩ := parseLine_eq_some U ln r h
    have hl := lower_of_eqUpToCase w (ascii "com0com") hw (by decide)
    have hi : w <:+: r.devicePath ++ ascii " " ++ r.path := by
      rw [List.append_assoc]
      exact hin.trans (List.prefix_append _ _).isInfix
    have := toLower_infix U w _ hl.2 hi
    rw [hl.1, ← contains_iff] at this
    rw [hr] at this ⊢
    simp only [List.any_eq_true]
    exact ⟨ascii "com0com", by decide, this⟩
  refine ⟨hv, ?_⟩
  intro S S' out failed base order l1 l2 hreg hlast hord
  obtain ⟨p, hp, huniq, h1, h2⟩ :=
    listPorts_registry_entry S' base _ order hord l1 l2 r hreg hlast
  refine ⟨p, hp, huniq, ?_⟩
  by_cases hb : normKey r.path ∈ base.map normKey
  · rw [h1 hb]
    exact ⟨rfl, hv⟩
  · rw [h2 hb]
    exact ⟨rfl, hv⟩

/-- C12 at the line of a com0com port written in upper case: the record is
virtual, and so is the entry of the inventory built from that line. -/
theorem com0com_isVirtual_witness :
    (parseLine byteLower lineCnc = some recCnc ∧
      EqUpToCase (ascii "COM0COM") (ascii "com0com") ∧
      ascii "COM0COM" <:+: recCnc.devicePath) ∧
      listFromWindowsRegistry insertionSlice byteLower lineCnc false = [recCnc] ∧
      (listPorts insertionSlice [ascii "CNCA0"] [recCnc]
          (someOrder [ascii "CNCA0"] [recCnc])).1.map (fun p => (p.path, p.isVirtual))
        = [(ascii "CNCA0", true)] ∧
      recCnc.isVirtual = true :=
  ⟨⟨by decide, by simp [EqUpToCase, SameLetter, ascii], by decide⟩, by decide, by decide,
    (com0com_isVirtual byteLower lineCnc recCnc (by decide) (ascii "COM0COM")
      (by simp [EqUpToCase, SameLetter, ascii]) (by decide)).1⟩

/-- C13: the merger cannot fail: for every base list and registry list
`listPorts` returns a `nil` error, so the listing branch of `main` does not
exit with status 2; and when both source lists are empty, the key set is empty
and the returned inventory is empty. -/
theorem listPorts_no_error (S : SliceSort) (base : List GoString) (reg : List Port)
    (order : List GoString) :
    (listPorts S base reg order).2 = none ∧
      mainListExit (listPorts S base reg order) = 0 ∧
      ∀ order' : List GoString, RangeOrder [] [] order' →
        order' = [] ∧ (listPorts S [] [] order').1 = [] := by
  refine ⟨rfl, rfl, ?_⟩
  intro order' h
  have e : order' = [] := List.Perm.eq_nil h
  subst e
  exact ⟨rfl, sortPorts_nil S⟩

/-- C13 with both source lists empty: no error, exit status 0, no entry. -/
theorem listPorts_no_error_witness :
    RangeOrder [] [] [] ∧ listPorts insertionSlice [] [] [] = ([], none) ∧
      mainListExit (listPorts insertionSlice [] [] []) = 0 ∧
      (listPorts insertionSlice [] [] []).1 = [] :=
  ⟨List.Perm.refl _, by decide, by decide,
    ((listPorts_no_error insertionSlice [] [] []).2.2 [] (List.Perm.refl _)).2⟩

/-- C14: `normKey` is an upper-casing of ASCII only: the key has the length of
the input; a byte in `'a'..'z'` becomes the byte 32 below it, in `'A'..'Z'`;
every other byte, among them every byte from `0x80` on, is left as it is; and
the empty string has the empty key. -/
theorem normKey_ascii_upper (s : GoString) :
    (normKey s).length = s.length ∧
      (∀ (i b : Nat), s[i]? = some b → 97 ≤ b → b ≤ 122 →
        (normKey s)[i]? = some (b - 32) ∧ 65 ≤ b - 32 ∧ b - 32 ≤ 90) ∧
      (∀ (i b : Nat), s[i]? = some b → ¬ (97 ≤ b ∧ b ≤ 122) → (normKey s)[i]? = some b) ∧
      (∀ (i b : Nat), s[i]? = some b → 128 ≤ b → (normKey s)[i]? = some b) ∧
      normKey [] = [] := by
  have hget : ∀ (i b : Nat), s[i]? = some b → (normKey s)[i]? = some (upperByte b) := by
    intro i b h
    simp [normKey, stringsToUpperASCII, List.getElem?_map, h]
  refine ⟨by simp [normKey, stringsToUpperASCII], ?_, ?_, ?_, rfl⟩
  · intro i b h h1 h2
    rw [hget i b h]
    have : upperByte b = b - 32 := by simp [upperByte, h1, h2]
    rw [this]
    exact ⟨rfl, by omega, by omega⟩
  · intro i b h hn
    rw [hget i b h]
    have : upperByte b = b := by
      unfold upperByte
      rw [if_neg hn]
    rw [this]
  · intro i b h h1
    rw [hget i b h]
    have : upperByte b = b := by
      unfold upperByte
      rw [if_neg (by omega)]
    rw [this]

/-- C14 at `com3` followed by the two bytes of `é`: `COM3` and the same two bytes. -/
theorem normKey_ascii_upper_witness :
    normKey (ascii "com3" ++ [195, 169]) = ascii "COM3" ++ [195, 169] ∧
      (normKey (ascii "com3" ++ [195, 169])).length = (ascii "com3" ++ [195, 169]).length :=
  ⟨by decide, (normKey_ascii_upper (ascii "com3" ++ [195, 169])).1⟩

/-- C15: records for keys found in one source only are emitted unchanged.  For a
key of the registry list only, the inventory has the registry record stored for
it, the last with that key, identical in every field; for a key of the base list
only, it has a record whose path is the base path as given (the last with that
key), with source `"serial"`, `isVirtual = false` and the other fields empty.
Each is the only entry with its key. -/
theorem listPorts_single_source (S : SliceSort) (base : List GoString) (reg : List Port)
    (order : List GoString) (h : RangeOrder base reg order) :
    (∀ k, k ∉ base.map normKey → k ∈ reg.map (fun r => normKey r.path) →
      ∃ l1 r l2, reg = l1 ++ r :: l2 ∧ normKey r.path = k ∧
        (∀ y ∈ l2, normKey y.path ≠ k) ∧
        r ∈ (listPorts S base reg order).1 ∧
        ∀ q ∈ (listPorts S base reg order).1, normKey q.path = k → q = r) ∧
      (∀ k, k ∈ base.map normKey → k ∉ reg.map (fun r => normKey r.path) →
        ∃ l1 b l2, base = l1 ++ b :: l2 ∧ normKey b = k ∧
          (∀ y ∈ l2, normKey y ≠ k) ∧
          ∃ p ∈ (listPorts S base reg order).1,
            (∀ q ∈ (listPorts S base reg order).1, normKey q.path = k → q = p) ∧
            p.path = b ∧ p.source = srcSerial ∧ p.isVirtual = false ∧
            p.friendlyName = [] ∧ p.devicePath = [] ∧ p.manufacturer = [] ∧
            p.pnpId = [] ∧ p.deviceLocation = [] ∧ p.productId = []) := by
  constructor
  · intro k hkb hkr
    obtain ⟨l1, r, l2, e, hrk, hlast⟩ :=
      exists_last_with_key (fun r : Port => normKey r.path) reg k hkr
    have hrk' : normKey r.path = k := hrk
    subst hrk'
    obtain ⟨p, hp, huniq, _, h2⟩ :=
      listPorts_registry_entry S base reg order h l1 l2 r e hlast
    have hpr : p = r := h2 hkb
    subst hpr
    exact ⟨l1, p, l2, e, rfl, hlast, hp, huniq⟩
  · intro k hkb hkr
    obtain ⟨l1, b, l2, e, hbk, hlast⟩ := exists_last_with_key normKey base k hkb
    subst hbk
    obtain ⟨hp, huniq⟩ := listPorts_base_entry S base reg order h l1 l2 b e hlast hkr
    exact ⟨l1, b, l2, e, rfl, hlast, _, hp, huniq, rfl, rfl, rfl, rfl, rfl, rfl, rfl,
      rfl, rfl⟩

/-- C15 at the sample lists: `COM12` is in the registry list only and its record
is in the inventory as it is; `ttyS1`, spelt `TTYS1` last, is in the base list
only. -/
theorem listPorts_single_source_witness :
    RangeOrder sampleBase sampleReg (someOrder sampleBase sampleReg) ∧
      ({ serial7 with path := ascii "COM12" } : Port) ∈
        (listPorts insertionSlice sampleBase sampleReg (someOrder sampleBase sampleReg)).1 ∧
      ({ path := ascii "TTYS1", source := ascii "serial" } : Port) ∈
        (listPorts insertionSlice sampleBase sampleReg (someOrder sampleBase sampleReg)).1 ∧
      ∃ l1 r l2, sampleReg = l1 ++ r :: l2 ∧ normKey r.path = ascii "COM12" ∧
        (∀ y ∈ l2, normKey y.path ≠ ascii "COM12") ∧
        r ∈ (listPorts insertionSlice sampleBase sampleReg
          (someOrder sampleBase sampleReg)).1 ∧
        ∀ q ∈ (listPorts insertionSlice sampleBase sampleReg
            (someOrder sampleBase sampleReg)).1,
          normKey q.path = ascii "COM12" → q = r :=
  ⟨rangeOrder_someOrder _ _, by decide, by decide,
    (listPorts_single_source insertionSlice sampleBase sampleReg _
      (rangeOrder_someOrder _ _)).1 (ascii "COM12") (by decide) (by decide)⟩

/-- C16: when every registry record carries the source `"SERIALCOMM"`, every
entry of the inventory has one of the sources `"serial"`, `"SERIALCOMM"`,
`"SERIALCOMM+serial"`; it is `"serial"` exactly when the key of the entry is a
key of the base paths only, and `"SERIALCOMM"` exactly when it is a key of the
registry paths only. -/
theorem listPorts_source_values (S : SliceSort) (base : List GoString) (reg : List Port)
    (order : List GoString) (h : RangeOrder base reg order)
    (hsrc : ∀ r ∈ reg, r.source = srcRegistry) :
    ∀ p ∈ (listPorts S base reg order).1,
      (p.source = srcSerial ∨ p.source = srcRegistry ∨ p.source = srcBoth) ∧
      (p.source = srcSerial ↔
        (normKey p.path ∈ base.map normKey ∧
          normKey p.path ∉ reg.map (fun r => normKey r.path))) ∧
      (p.source = srcRegistry ↔
        (normKey p.path ∉ base.map normKey ∧
          normKey p.path ∈ reg.map (fun r => normKey r.path))) := by
  intro p hp
  have _ := h
  have d1 : srcBoth ≠ srcSerial := by decide
  have d2 : srcBoth ≠ srcRegistry := by decide
  have d3 : srcRegistry ≠ srcSerial := by decide
  rcases listPorts_entry_cases S base reg order p hp with
    ⟨hb, hr, r, _, e⟩ | ⟨hb, hr, hm⟩ | ⟨hb, hr, e, _⟩
  · have hs : p.source = srcBoth := by rw [e]
    rw [hs]
    exact ⟨Or.inr (Or.inr rfl), ⟨fun c => absurd c d1, fun c => absurd hr c.2⟩,
      ⟨fun c => absurd c d2, fun c => absurd hb c.1⟩⟩
  · have hs : p.source = srcRegistry := hsrc p hm
    rw [hs]
    exact ⟨Or.inr (Or.inl rfl), ⟨fun c => absurd c d3, fun c => absurd c.1 hb⟩,
      ⟨fun _ => ⟨hb, hr⟩, fun _ => rfl⟩⟩
  · have hs : p.source = srcSerial := by rw [e]
    rw [hs]
    exact ⟨Or.inl rfl, ⟨fun _ => ⟨hb, hr⟩, fun _ => rfl⟩,
      ⟨fun c => absurd c.symm d3, fun c => absurd hb c.1⟩⟩

/-- C16 at the sample lists: the four entries and their sources. -/
theorem listPorts_source_values_witness :
    (RangeOrder sampleBase sampleReg (someOrder sampleBase sampleReg) ∧
      ∀ r ∈ sampleReg, r.source = srcRegistry) ∧
      (listPorts reversingSlice sampleBase sampleReg
          (someOrder sampleBase sampleReg)).1.map (fun p => (p.path, p.source))
        = [(ascii "TTYS1", ascii "serial"), (ascii "COM3", ascii "SERIALCOMM+serial"),
           (ascii "COM7", ascii "SERIALCOMM+serial"), (ascii "COM12", ascii "SERIALCOMM")] ∧
      ∀ p ∈ (listPorts reversingSlice sampleBase sampleReg
          (someOrder sampleBase sampleReg)).1,
        (p.source = srcSerial ∨ p.source = srcRegistry ∨ p.source = srcBoth) ∧
        (p.source = srcSerial ↔
          (normKey p.path ∈ sampleBase.map normKey ∧
            normKey p.path ∉ sampleReg.map (fun r => normKey r.path))) ∧
        (p.source = srcRegistry ↔
          (normKey p.path ∉ sampleBase.map normKey ∧
            normKey p.path ∈ sampleReg.map (fun r => normKey r.path))) :=
  ⟨⟨rangeOrder_someOrder _ _, by decide⟩, by decide,
    listPorts_source_values reversingSlice sampleBase sampleReg _
      (rangeOrder_someOrder _ _) (by decide)⟩

/-- C17: every record the registry adapter returns comes from a line of the
query output that contains `REG_SZ`; its path is non-empty and neither begins
nor ends with white space; its source is `"SERIALCOMM"`; and its friendlyName
equals its devicePath.  An output with no line containing `REG_SZ` yields the
empty list. -/
theorem registry_records (S : SliceSort) (U : UnicodeLower) (out : GoString)
    (failed : Bool) :
    (∀ r ∈ listFromWindowsRegistry S U out failed,
      (∃ ln ∈ regLines out, regSz <:+: ln ∧ parseLine U ln = some r) ∧
        r.path ≠ [] ∧ NoLeadSpace r.path ∧ NoTrailSpace r.path ∧
        r.source = srcRegistry ∧ r.friendlyName = r.devicePath) ∧
      ((∀ ln ∈ regLines out, ¬ regSz <:+: ln) →
        listFromWindowsRegistry S U out failed = []) := by
  constructor
  · intro r hr
    obtain ⟨_, ln, hln, hp⟩ := (mem_listFromWindowsRegistry S U out failed r).1 hr
    obtain ⟨hc, g, _, hne, e⟩ := parseLine_eq_some U ln r hp
    refine ⟨⟨ln, hln, (contains_iff _ _).1 hc, hp⟩, ?_⟩
    rw [e]
    exact ⟨hne, trimSpace_noLead g, trimSpace_noTrail g, rfl, rfl⟩
  · intro hno
    apply List.eq_nil_iff_forall_not_mem.2
    intro r hr
    obtain ⟨_, ln, hln, hp⟩ := (mem_listFromWindowsRegistry S U out failed r).1 hr
    obtain ⟨hc, _⟩ := parseLine_eq_some U ln r hp
    exact hno ln hln ((contains_iff _ _).1 hc)

/-- C17 at the output `twoNames`, two records, and at an error text of the
registry query, which has no line with `REG_SZ` and gives no record. -/
theorem registry_records_witness :
    listFromWindowsRegistry insertionSlice byteLower twoNames false = [virtual5, plain5] ∧
      (∀ r ∈ listFromWindowsRegistry insertionSlice byteLower twoNames false,
        (∃ ln ∈ regLines twoNames, regSz <:+: ln ∧ parseLine byteLower ln = some r) ∧
          r.path ≠ [] ∧ NoLeadSpace r.path ∧ NoTrailSpace r.path ∧
          r.source = srcRegistry ∧ r.friendlyName = r.devicePath) ∧
      listFromWindowsRegistry insertionSlice byteLower
        (ascii "ERROR: no such key\r\n")
        false = [] :=
  ⟨by decide, (registry_records insertionSlice byteLower twoNames false).1,
    (registry_records insertionSlice byteLower
      (ascii "ERROR: no such key\r\n")
      false).2 (by decide)⟩

/-- C18, as stated, fails whichever way "whitespace" is read.  Read as the class
`\s` of the pattern, which has no vertical tab: the value name `N` made of a
vertical tab and `Name` neither begins nor ends with it, yet the record has
devicePath `Name`, not `N`, because `strings.TrimSpace` takes the vertical tab
off.  Read as `unicode.IsSpace`, which has the vertical tab: the line with a
vertical tab as the only character between the marker and the value gives no
record, because the pattern wants a character of `\s` there. -/
theorem registry_line_whitespace_counterexample :
    (isReSpace 11 = false ∧ [11] ∈ spaceRunes) ∧
      ((∀ b ∈ (11 :: ascii "Name").head?, isReSpace b = false) ∧
        (∀ b ∈ (11 :: ascii "Name").getLast?, isReSpace b = false) ∧
        ¬ [32, 32] <:+: 11 :: ascii "Name" ∧ ¬ regSz <:+: 11 :: ascii "Name" ∧
        (∀ U : UnicodeLower,
          parseLine U (11 :: ascii "Name" ++ ascii "    " ++ regSz ++ ascii "    "
              ++ ascii "COM3")
            = some { path := ascii "COM3", friendlyName := ascii "Name",
                     devicePath := ascii "Name", source := srcRegistry }) ∧
        ascii "Name" ≠ 11 :: ascii "Name") ∧
      (SpaceRun [11] ∧ NoLeadSpace (ascii "Name") ∧ NoTrailSpace (ascii "Name") ∧
        NoLeadSpace (ascii "COM3") ∧ NoTrailSpace (ascii "COM3") ∧
        ∀ U : UnicodeLower,
          parseLine U (ascii "Name" ++ ascii "    " ++ regSz ++ [11] ++ ascii "COM3")
            = none) :=
  ⟨⟨by decide, by decide⟩,
    ⟨by decide, by decide, by decide, by decide, fun _ => rfl, by decide⟩,
    ⟨RunOf.cons [11] [] (by decide) RunOf.nil, by unfold NoLeadSpace; decide,
      by unfold NoTrailSpace; decide, by unfold NoLeadSpace; decide,
      by unfold NoTrailSpace; decide, fun _ => rfl⟩⟩

/-- C18, amended: a line made of white space (possibly none), a value name `N`,
two spaces or more, the marker `REG_SZ`, one or more characters of the class
`\s` of the pattern, a value `V`, and white space (possibly none), where white
space, but for the characters after the marker, is what `strings.TrimSpace`
takes off (`unicode.IsSpace`), `N` is non-empty, neither begins nor ends with
white space, has no two consecutive spaces and does not contain `REG_SZ`, and
`V` is non-empty and neither begins nor ends with white space, the line holding
no line feed: the line parser emits one record for it, with `path = V` and
`friendlyName = devicePath = N`, and the adapter run on that line alone returns
exactly this record. -/
theorem registry_line_record (U : UnicodeLower) (lead N sep V trail : GoString) (n : Nat)
    (hlead : SpaceRun lead) (htrail : SpaceRun trail) (hn : 2 ≤ n)
    (hsep : sep ≠ [] ∧ ∀ b ∈ sep, isReSpace b = true)
    (hN : N ≠ [] ∧ NoLeadSpace N ∧ NoTrailSpace N ∧ ¬ [32, 32] <:+: N ∧ ¬ regSz <:+: N)
    (hV : V ≠ [] ∧ NoLeadSpace V ∧ NoTrailSpace V)
    (hline : 10 ∉ lead ++ N ++ List.replicate n 32 ++ regSz ++ sep ++ V ++ trail) :
    ∃ r, parseLine U (lead ++ N ++ List.replicate n 32 ++ regSz ++ sep ++ V ++ trail)
        = some r ∧
      r.path = V ∧ r.friendlyName = N ∧ r.devicePath = N ∧ r.source = srcRegistry ∧
      ∀ S : SliceSort,
        listFromWindowsRegistry S U
          (lead ++ N ++ List.replicate n 32 ++ regSz ++ sep ++ V ++ trail) false = [r] := by
  have hlf : 10 ∉ V ++ trail := by
    intro hm
    apply hline
    simp only [List.append_assoc] at hm ⊢
    simp only [List.mem_append] at hm ⊢
    tauto
  have hp := parseLine_of_form U lead N sep V trail n hlead htrail hn hsep.1 hsep.2
    hN.1 hN.2.1 hN.2.2.1 hN.2.2.2.1 hN.2.2.2.2 hV.1 hV.2.1 hV.2.2 hlf
  refine ⟨_, hp, rfl, rfl, rfl, rfl, ?_⟩
  intro S
  unfold listFromWindowsRegistry
  simp only [Bool.false_eq_true, if_false]
  rw [regLines_of_no_lf _ hline]
  simp only [List.filterMap_cons, hp, List.filterMap_nil]
  exact sortPorts_singleton S _

/-- C18 at the example: the line `    \Device\Serial0    REG_SZ    COM3` gives
path `COM3` and devicePath `\Device\Serial0`. -/
theorem registry_line_record_witness :
    (lineSerial0 = ascii "    " ++ ascii "\\Device\\Serial0" ++ List.replicate 4 32 ++ regSz
        ++ ascii "    " ++ ascii "COM3" ++ [] ∧
      SpaceRun (ascii "    ") ∧ SpaceRun [] ∧
      (ascii "    " ≠ [] ∧ ∀ b ∈ ascii "    ", isReSpace b = true) ∧
      (ascii "\\Device\\Serial0" ≠ [] ∧ NoLeadSpace (ascii "\\Device\\Serial0") ∧
        NoTrailSpace (ascii "\\Device\\Serial0") ∧
        ¬ [32, 32] <:+: ascii "\\Device\\Serial0" ∧ ¬ regSz <:+: ascii "\\Device\\Serial0") ∧
      (ascii "COM3" ≠ [] ∧ NoLeadSpace (ascii "COM3") ∧ NoTrailSpace (ascii "COM3")) ∧
      10 ∉ lineSerial0) ∧
      parseLine byteLower lineSerial0
        = some { path := ascii "COM3", friendlyName := ascii "\\Device\\Serial0",
                 devicePath := ascii "\\Device\\Serial0", source := ascii "SERIALCOMM",
                 isVirtual := false } ∧
      ∃ r, parseLine byteLower (ascii "    " ++ ascii "\\Device\\Serial0" ++
            List.replicate 4 32 ++ regSz ++ ascii "    " ++ ascii "COM3" ++ []) = some r ∧
        r.path = ascii "COM3" ∧ r.friendlyName = ascii "\\Device\\Serial0" ∧
        r.devicePath = ascii "\\Device\\Serial0" ∧ r.source = srcRegistry ∧
        ∀ S : SliceSort,
          listFromWindowsRegistry S byteLower (ascii "    " ++ ascii "\\Device\\Serial0" ++
            List.replicate 4 32 ++ regSz ++ ascii "    " ++ ascii "COM3" ++ []) false = [r] :=
  have hrun : SpaceRun (ascii "    ") :=
    RunOf.cons [32] _ (by decide) (RunOf.cons [32] _ (by decide)
      (RunOf.cons [32] _ (by decide) (RunOf.cons [32] _ (by decide) RunOf.nil)))
  have hN : ascii "\\Device\\Serial0" ≠ [] ∧ NoLeadSpace (ascii "\\Device\\Serial0") ∧
      NoTrailSpace (ascii "\\Device\\Serial0") ∧
      ¬ [32, 32] <:+: ascii "\\Device\\Serial0" ∧ ¬ regSz <:+: ascii "\\Device\\Serial0" :=
    ⟨by decide, by unfold NoLeadSpace; decide, by unfold NoTrailSpace; decide, by decide,
      by decide⟩
  have hV : ascii "COM3" ≠ [] ∧ NoLeadSpace (ascii "COM3") ∧ NoTrailSpace (ascii "COM3") :=
    ⟨by decide, by unfold NoLeadSpace; decide, by unfold NoTrailSpace; decide⟩
  ⟨⟨by decide, hrun, RunOf.nil, by decide, hN, hV, by decide⟩, by decide,
    registry_line_record byteLower (ascii "    ") (ascii "\\Device\\Serial0")
      (ascii "    ") (ascii "COM3") [] 4 hrun RunOf.nil (by decide) (by decide)
      hN hV (by decide)⟩

/-- C19: when the base list holds several spellings of one normalized key and
the key is not a key of the registry list, the inventory has a single entry for
that key and its path is the spelling that occurs last in the base list; and
reordering such a base list can change the inventory: `["com3", "COM3"]` and
`["COM3", "com3"]` give different inventories. -/
theorem listPorts_last_spelling (S : SliceSort) (base : List GoString) (reg : List Port)
    (order : List GoString) (h : RangeOrder base reg order) (l1 l2 : List GoString)
    (b : GoString) (hbase : base = l1 ++ b :: l2)
    (hlast : ∀ y ∈ l2, normKey y ≠ normKey b)
    (hreg : normKey b ∉ reg.map (fun r => normKey r.path)) :
    (∃ p ∈ (listPorts S base reg order).1, p.path = b ∧
      ∀ q ∈ (listPorts S base reg order).1, normKey q.path = normKey b → q = p) ∧
      [ascii "com3", ascii "COM3"].Perm [ascii "COM3", ascii "com3"] ∧
      ∀ (S' : SliceSort) (o1 o2 : List GoString),
        RangeOrder [ascii "com3", ascii "COM3"] [] o1 →
        RangeOrder [ascii "COM3", ascii "com3"] [] o2 →
        (listPorts S' [ascii "com3", ascii "COM3"] [] o1).1
          = [{ path := ascii "COM3", source := srcSerial }] ∧
        (listPorts S' [ascii "COM3", ascii "com3"] [] o2).1
          = [{ path := ascii "com3", source := srcSerial }] ∧
        (listPorts S' [ascii "com3", ascii "COM3"] [] o1).1
          ≠ (listPorts S' [ascii "COM3", ascii "com3"] [] o2).1 := by
  obtain ⟨hp, huniq⟩ := listPorts_base_entry S base reg order h l1 l2 b hbase hlast hreg
  refine ⟨⟨_, hp, rfl, huniq⟩, List.Perm.swap _ _ _, ?_⟩
  intro S' o1 o2 h1 h2
  have e1 : (listPorts S' [ascii "com3", ascii "COM3"] [] o1).1
      = [{ path := ascii "COM3", source := srcSerial }] :=
    (listPorts_unique S' insertionSlice _ _ o1 _ h1 (rangeOrder_someOrder _ _)).trans
      (by decide)
  have e2 : (listPorts S' [ascii "COM3", ascii "com3"] [] o2).1
      = [{ path := ascii "com3", source := srcSerial }] :=
    (listPorts_unique S' insertionSlice _ _ o2 _ h2 (rangeOrder_someOrder _ _)).trans
      (by decide)
  refine ⟨e1, e2, ?_⟩
  rw [e1, e2]
  decide

/-- C19 at `["com3", "COM3"]` with an empty registry list: the entry is `COM3`. -/
theorem listPorts_last_spelling_witness :
    (RangeOrder [ascii "com3", ascii "COM3"] [] (someOrder [ascii "com3", ascii "COM3"] []) ∧
      [ascii "com3", ascii "COM3"] = [ascii "com3"] ++ ascii "COM3" :: [] ∧
      normKey (ascii "com3") = normKey (ascii "COM3")) ∧
      ∃ p ∈ (listPorts insertionSlice [ascii "com3", ascii "COM3"] []
          (someOrder [ascii "com3", ascii "COM3"] [])).1,
        p.path = ascii "COM3" ∧
        ∀ q ∈ (listPorts insertionSlice [ascii "com3", ascii "COM3"] []
            (someOrder [ascii "com3", ascii "COM3"] [])).1,
          normKey q.path = normKey (ascii "COM3") → q = p :=
  ⟨⟨rangeOrder_someOrder _ _, rfl, by decide⟩,
    (listPorts_last_spelling insertionSlice [ascii "com3", ascii "COM3"] [] _
      (rangeOrder_someOrder _ _) [ascii "com3"] [] (ascii "COM3") rfl (by simp)
      (by simp)).1⟩

/-- C20: `normKey` is idempotent, so looking a key up again under normalisation
finds the same entry of `baseMap` and of `regMap`, and a record whose path is a
key has that key. -/
theorem normKey_idempotent (s : GoString) :
    normKey (normKey s) = normKey s ∧
      (∀ base : List GoString,
        mapGet (baseMapOf base) (normKey (normKey s)) = mapGet (baseMapOf base) (normKey s)) ∧
      (∀ reg : List Port,
        mapGet (regMapOf reg) (normKey (normKey s)) = mapGet (regMapOf reg) (normKey s)) := by
  refine ⟨normKey_idem s, ?_, ?_⟩
  · intro base
    rw [normKey_idem]
  · intro reg
    rw [normKey_idem]

end SerialPort
